import Mathlib

/-!
Verification development for the audio-graph-prototype scheduler
(`src/index.ts`).  The TypeScript source is shallowly embedded below:
buffers become natural-number handles allocated from a counter, the
mutable node objects become an association list from node name to node
record threaded through an explicit state, and the recursive `visit`
function becomes a fuel-indexed function into `Option`.
-/

namespace AudioGraph

/-- A connection stored on a port: the node on the other side and a port
name on that node (`{ node: Node, port: string }` in the source, with the
object reference replaced by the node's name). -/
structure Conn where
  node : String
  port : String
deriving Repr, DecidableEq

/-- `Port` from the source.  The transient fields `latency`,
`compensation` and `buffer` are `Option`s, `none` playing the role of
TypeScript `undefined`. -/
structure Port where
  name : String
  connection : Option Conn := none
  latency : Option Int := none
  compensation : Option Int := none
  buffer : Option Nat := none
deriving Repr, DecidableEq

/-- `Node` from the source (without the opaque `process` callback, which
the scheduler never calls). -/
structure Node where
  name : String
  inputs : List Port
  outputs : List Port
  latency : Option Int := none
  delay : Int
  visited : Bool
deriving Repr, DecidableEq

/-- `BufferAssignment` from the source. -/
structure BufferAssignment where
  port : String
  buffer : Option Nat
  compensation : Option Int := none
deriving Repr, DecidableEq

/-- `Scheduled` from the source; the node is recorded by name. -/
structure Scheduled where
  node : String
  inputs : List BufferAssignment
  outputs : List BufferAssignment
deriving Repr, DecidableEq

/-- The state threaded through `schedule`: the graph (the mutable node
objects), the output `order`, the buffer pool stack and the counter used
to produce fresh buffer handles. -/
structure St where
  nodes : List (String × Node)
  order : List Scheduled
  bufferStack : List Nat
  nextBuf : Nat
deriving Repr, DecidableEq

/-- Association-list lookup of a node by name (dereferencing a node
reference in the source). -/
def lookupN : List (String × Node) → String → Option Node
  | [], _ => none
  | p :: ps, x => if p.1 = x then some p.2 else lookupN ps x

/-- Update the node with the given name (mutating a node object in the
source). -/
def updateN : List (String × Node) → String → (Node → Node) → List (String × Node)
  | [], _, _ => []
  | p :: ps, x, f => (if p.1 = x then (p.1, f p.2) else p) :: updateN ps x f

def getNode (s : St) (x : String) : Option Node := lookupN s.nodes x

def updateNode (s : St) (x : String) (f : Node → Node) : St :=
  { s with nodes := updateN s.nodes x f }

/-- Update the element at a given index of a list, leaving the rest
unchanged (mutating one port of a node's port array). -/
def modifyAt : List α → Nat → (α → α) → List α
  | [], _, _ => []
  | a :: as, 0, f => f a :: as
  | a :: as, n + 1, f => a :: modifyAt as n f

/-- `acquireBuffer` from the source: pop the stack if non-empty,
otherwise make a fresh buffer (`{}` in the source: a fresh handle). -/
def acquireBuffer (s : St) : St × Nat :=
  match s.bufferStack with
  | [] => ({ s with nextBuf := s.nextBuf + 1 }, s.nextBuf)
  | b :: rest => ({ s with bufferStack := rest }, b)

/-- `releaseBuffer` from the source. -/
def releaseBuffer (s : St) (b : Nat) : St :=
  { s with bufferStack := b :: s.bufferStack }

/-- `Math.max` folded over possibly-undefined latencies; `none` is the
poison value standing for a computation touching `undefined`/`NaN`. -/
def jmax : Option Int → Option Int → Option Int
  | some a, some b => some (max a b)
  | _, _ => none

/-- Subtraction on possibly-undefined numbers. -/
def jsub : Option Int → Option Int → Option Int
  | some a, some b => some (a - b)
  | _, _ => none

/-- Addition on possibly-undefined numbers. -/
def jadd : Option Int → Option Int → Option Int
  | some a, some b => some (a + b)
  | _, _ => none

/-- Lines 91–93 of the source: for each output port, acquire a fresh
buffer and store it on the port. -/
def acquireOutputs (name : String) (k : Nat) (s : St) : St :=
  (List.range k).foldl
    (fun s i =>
      let p := acquireBuffer s
      updateNode p.1 name fun n =>
        { n with outputs := modifyAt n.outputs i fun q => { q with buffer := some p.2 } })
    s

/-- Lines 115–118 of the source: release every output buffer. -/
def releaseOutputs (name : String) (s : St) : St :=
  match getNode s name with
  | none => s
  | some node =>
    node.outputs.foldl
      (fun s p =>
        match p.buffer with
        | some b => releaseBuffer s b
        | none => s)
      s

/-- The step record pushed on line 149 of the source, built from the
node's current port fields (lines 136–146). -/
def mkStep (name : String) (n : Node) : Scheduled :=
  { node := name
    inputs := n.inputs.map fun p =>
      { port := p.name, buffer := p.buffer, compensation := p.compensation }
    outputs := n.outputs.map fun p => { port := p.name, buffer := p.buffer } }

/-- The value returned by `visit` (lines 157–166 of the source): each
output port keyed by the name of the downstream input port recorded in
the output's `connection` (or `""` when there is none). -/
def mkReturnOuts (n : Node) : List BufferAssignment :=
  n.outputs.map fun p =>
    { port := match p.connection with | some c => c.port | none => ""
      buffer := p.buffer }

/-- Lines 126–131 of the source, for one input port: compute the
compensation from the max input latency `L` and record it on the port
when it is non-zero (the port is left untouched when it is zero). -/
def compPort (L : Option Int) (p : Port) : Port :=
  let comp := jsub L p.latency
  if comp ≠ some 0 then { p with compensation := comp } else p

/-- Lines 120–152 of the source, for the node record `node` currently
stored under `name`: compute the max input latency over the node's input
ports, record per-input compensations (only when non-zero), set the
node's latency, append the node's step to the order and mark it visited.
`node2` is the node as re-read on lines 136–146 after the two writes,
which the lemma `finishNode_spec` relates to the stored record. -/
def finishNodeCore (name : String) (node : Node) (s : St) : St :=
  let L := (node.inputs.map (·.latency)).foldl jmax (some 0)
  let s1 := updateNode s name fun n => { n with inputs := n.inputs.map (compPort L) }
  let s2 := updateNode s1 name fun n => { n with latency := jadd L (some n.delay) }
  let node2 : Node :=
    { node with inputs := node.inputs.map (compPort L)
                latency := jadd L (some node.delay) }
  let s3 := { s2 with order := s2.order ++ [mkStep name node2] }
  updateNode s3 name fun n => { n with visited := true }

/-- Lines 120–152 of the source: dereference the node and finish it. -/
def finishNode (name : String) (s : St) : St :=
  match getNode s name with
  | none => s
  | some node => finishNodeCore name node s

/-- Lines 96–113 of the source, abstracted over the recursive call `go`:
process the input ports with the given indices in order.  A connected
input visits the upstream node, looks its buffer up among the returned
assignments by this input's *name* and records the returned latency; an
unconnected input gets latency 0 and a freshly acquired, immediately
released buffer. -/
def visitInputsF (go : String → St → Option (St × Option Int × List BufferAssignment))
    (name : String) : List Nat → St → Option St
  | [], s => some s
  | i :: rest, s =>
    match getNode s name with
    | none => none
    | some node =>
      match node.inputs[i]? with
      | none => none
      | some input =>
        match input.connection with
        | some conn =>
          match go conn.node s with
          | none => none
          | some (s1, lat, outs) =>
            let corresponding := outs.find? fun assn => assn.port == input.name
            let s2 := updateNode s1 name fun n =>
              { n with
                inputs := modifyAt n.inputs i fun p =>
                  { p with latency := lat, buffer := corresponding.bind (·.buffer) } }
            visitInputsF go name rest s2
        | none =>
          let s1 := updateNode s name fun n =>
            { n with inputs := modifyAt n.inputs i fun p => { p with latency := some 0 } }
          let p := acquireBuffer s1
          let s3 := updateNode p.1 name fun n =>
            { n with inputs := modifyAt n.inputs i fun q => { q with buffer := some p.2 } }
          visitInputsF go name rest (releaseBuffer s3 p.2)

/-- `visit` from the source (lines 88–167), with a fuel argument added
to make the recursion structural; every call of the source consumes one
unit.  Returns the updated state together with the node's latency field
and the output assignments of lines 157–166. -/
def visit : Nat → String → St → Option (St × Option Int × List BufferAssignment)
  | 0 => fun _ _ => none
  | fuel + 1 => fun name s =>
    match getNode s name with
    | none => none
    | some node =>
      if node.visited then
        some (s, node.latency, mkReturnOuts node)
      else
        match visitInputsF (visit fuel) name (List.range node.inputs.length)
            (acquireOutputs name node.outputs.length s) with
        | none => none
        | some s1 =>
          let s2 := finishNode name (releaseOutputs name s1)
          match getNode s2 name with
          | none => none
          | some node2 => some (s2, node2.latency, mkReturnOuts node2)

/-- `schedule` from the source (lines 75–170): run `visit` on the root
starting from an empty order and an empty buffer pool, returning the
final state. -/
def schedule (fuel : Nat) (nodes : List (String × Node)) (root : String) : Option St :=
  match visit fuel root { nodes := nodes, order := [], bufferStack := [], nextBuf := 0 } with
  | none => none
  | some (s, _, _) => some s

/-- The list the source's `schedule` returns: just the order. -/
def scheduleOrder (fuel : Nat) (nodes : List (String × Node)) (root : String) :
    Option (List Scheduled) :=
  (schedule fuel nodes root).map (·.order)

/-- The delay invocations the source's `render` (lines 64–73) performs:
one `delay(buffer, amount)` per input binding whose compensation is
truthy (present and non-zero). -/
def renderDelays (sched : List Scheduled) : List (Option Nat × Int) :=
  sched.flatMap fun step =>
    step.inputs.flatMap fun ba =>
      match ba.compensation with
      | some c => if c ≠ 0 then [(ba.buffer, c)] else []
      | none => []

/-! ### The static skeleton of a graph

The scheduler never writes a port's `name` or `connection`, a node's
`name`, `delay` or port lists; those static parts form the *skeleton*,
over which reachability, acyclicity and well-formedness are phrased. -/

/-- Static part of a port. -/
structure PortSkel where
  name : String
  connection : Option Conn
deriving Repr, DecidableEq

/-- Static part of a node. -/
structure NodeSkel where
  name : String
  delay : Int
  inputs : List PortSkel
  outputs : List PortSkel
deriving Repr, DecidableEq

def pskel (p : Port) : PortSkel := { name := p.name, connection := p.connection }

def nskel (n : Node) : NodeSkel :=
  { name := n.name
    delay := n.delay
    inputs := n.inputs.map pskel
    outputs := n.outputs.map pskel }

def skel (g : List (String × Node)) : List (String × NodeSkel) :=
  g.map fun p => (p.1, nskel p.2)

def lookupS : List (String × NodeSkel) → String → Option NodeSkel
  | [], _ => none
  | p :: ps, x => if p.1 = x then some p.2 else lookupS ps x

/-- The downstream input-port name an output port reports in the value
`visit` returns (lines 159–165 of the source). -/
def downName (p : PortSkel) : String :=
  match p.connection with
  | some c => c.port
  | none => ""

/-- Every input connection points to a node present in the graph. -/
def closedB (G : List (String × NodeSkel)) : Bool :=
  G.all fun a => a.2.inputs.all fun p =>
    match p.connection with
    | some c => (lookupS G c.node).isSome
    | none => true

/-- Every connected input finds, among the upstream node's outputs, an
output whose recorded downstream port name equals the input's name —
exactly the lookup the source performs on lines 101–103. -/
def lookupOKB (G : List (String × NodeSkel)) : Bool :=
  G.all fun a => a.2.inputs.all fun p =>
    match p.connection with
    | some c =>
      match lookupS G c.node with
      | some u => u.outputs.any fun o => downName o == p.name
      | none => false
    | none => true

/-- A rank function witnessing acyclicity: every connection strictly
decreases the rank from consumer to producer. -/
def measB (G : List (String × NodeSkel)) (m : String → Nat) : Bool :=
  G.all fun a => a.2.inputs.all fun p =>
    match p.connection with
    | some c => decide (m c.node < m a.1)
    | none => true

/-- All transient fields of a port are unset. -/
def freshPortB (p : Port) : Bool :=
  p.latency == none && p.compensation == none && p.buffer == none

/-- All transient fields of a node are unset and it is unvisited. -/
def freshNodeB (n : Node) : Bool :=
  n.latency == none && !n.visited && n.inputs.all freshPortB && n.outputs.all freshPortB

/-- A freshly reset graph, as the spec requires before a compile pass. -/
def freshB (g : List (String × Node)) : Bool :=
  g.all fun a => freshNodeB a.2

/-- Reachability in the upstream direction: `Reach G a b` holds when `b`
can be found from `a` by repeatedly following input connections. -/
inductive Reach (G : List (String × NodeSkel)) : String → String → Prop
  | refl (a : String) : Reach G a a
  | step {a b : String} (ns : NodeSkel) (p : PortSkel) (c : Conn) :
      lookupS G a = some ns → p ∈ ns.inputs → p.connection = some c →
      Reach G c.node b → Reach G a b

/-- Strict transitive dependency through input connections: some input
of `a` connects to a node from which `b` is reachable. -/
def DependsOn (G : List (String × NodeSkel)) (a b : String) : Prop :=
  ∃ ns p c, lookupS G a = some ns ∧ p ∈ ns.inputs ∧ p.connection = some c ∧
    Reach G c.node b

/-- Node `x` exists in the state and is marked visited. -/
def visitedAt (s : St) (x : String) : Prop :=
  ∃ n, getNode s x = some n ∧ n.visited = true

/-- Direct dependency: some input of `a` connects to `b`. -/
def directDep (G : List (String × NodeSkel)) (a b : String) : Prop :=
  ∃ ns p c, lookupS G a = some ns ∧ p ∈ ns.inputs ∧ p.connection = some c ∧
    c.node = b

/-- Names of the scheduled steps, in order. -/
def orderNames (ord : List Scheduled) : List String := ord.map (·.node)

/-- State of an input port after the loop of lines 96–113 has processed
it: a connected input carries the upstream node's latency and the buffer
found among the upstream's returned assignments by this input's name; an
unconnected input carries latency 0 and some buffer. -/
def InputDone (s : St) (p : Port) : Prop :=
  (∀ c, p.connection = some c →
    ∃ u, getNode s c.node = some u ∧ u.visited = true ∧
      p.latency = u.latency ∧
      p.buffer = (((mkReturnOuts u).find? fun a => a.port == p.name).bind (·.buffer))) ∧
  (p.connection = none → p.latency = some 0 ∧ p.buffer.isSome = true)

/-- State of a node once `visit` has fully processed it. -/
structure NodeDone (s : St) (n : Node) : Prop where
  lat : ∃ L, (n.inputs.map (·.latency)).foldl jmax (some 0) = some L ∧
    n.latency = some (L + n.delay) ∧
    ∀ p ∈ n.inputs, ∃ l, p.latency = some l ∧
      p.compensation = if L - l = 0 then none else some (L - l)
  conn : ∀ p ∈ n.inputs, ∀ c, p.connection = some c →
    ∃ u, getNode s c.node = some u ∧ u.visited = true ∧
      p.latency = u.latency ∧
      p.buffer = (((mkReturnOuts u).find? fun a => a.port == p.name).bind (·.buffer))
  unconn : ∀ p ∈ n.inputs, p.connection = none →
    p.latency = some 0 ∧ p.buffer.isSome = true
  outs : ∀ p ∈ n.outputs, p.buffer.isSome = true

/-- The invariant carried through the traversal.  It constrains the
order produced so far and the visited nodes only, so it is stable while
an unvisited node is being processed. -/
structure Inv (G : List (String × NodeSkel)) (s : St) : Prop where
  hskel : skel s.nodes = G
  hmem : ∀ x, x ∈ orderNames s.order ↔ visitedAt s x
  hnodup : (orderNames s.order).Nodup
  htop : ∀ i (hi : i < s.order.length) b,
    directDep G (s.order.get ⟨i, hi⟩).node b → b ∈ orderNames (s.order.take i)
  hclosedV : ∀ x n, getNode s x = some n → n.visited = true →
    ∀ p ∈ n.inputs, ∀ c, p.connection = some c → visitedAt s c.node
  hsteps : ∀ st ∈ s.order, ∃ n, getNode s st.node = some n ∧ n.visited = true ∧
    st = mkStep st.node n
  hdata : ∀ x n, getNode s x = some n → n.visited = true → NodeDone s n

/-! ### Concrete graphs

`diamondGraph` is exactly the example graph of lines 175–218 of the
source.  `fanoutGraph` exercises one output feeding two differently
named inputs.  `twoInputGraph` has one connected and one unconnected
input behind a delaying upstream node. -/

def sourceNode : Node :=
  { name := "source"
    delay := 0
    inputs := []
    outputs := [{ name := "out1", connection := some ⟨"Left", "in1"⟩ },
                { name := "out2", connection := some ⟨"Right", "in1"⟩ }]
    visited := false }

def leftNode : Node :=
  { name := "Left"
    delay := 1
    inputs := [{ name := "in1", connection := some ⟨"source", "out1"⟩ }]
    outputs := [{ name := "out1", connection := some ⟨"Sink", "in1"⟩ }]
    visited := false }

def rightNode : Node :=
  { name := "Right"
    delay := 2
    inputs := [{ name := "in1", connection := some ⟨"source", "out2"⟩ }]
    outputs := [{ name := "out1", connection := some ⟨"Sink", "in2"⟩ }]
    visited := false }

def sinkNode : Node :=
  { name := "Sink"
    delay := 0
    inputs := [{ name := "in1", connection := some ⟨"Left", "out1"⟩ },
               { name := "in2", connection := some ⟨"Right", "out2"⟩ }]
    outputs := []
    visited := false }

def diamondGraph : List (String × Node) :=
  [("source", sourceNode), ("Left", leftNode), ("Right", rightNode), ("Sink", sinkNode)]

/-- Rank function witnessing acyclicity of the diamond. -/
def diamondRank (x : String) : Nat :=
  if x = "source" then 0 else if x = "Sink" then 2 else 1

def fanSrcNode : Node :=
  { name := "up"
    delay := 0
    inputs := []
    outputs := [{ name := "o1", connection := some ⟨"a", "ia"⟩ }]
    visited := false }

def fanANode : Node :=
  { name := "a"
    delay := 0
    inputs := [{ name := "ia", connection := some ⟨"up", "o1"⟩ }]
    outputs := [{ name := "oa", connection := some ⟨"s", "s1"⟩ }]
    visited := false }

def fanBNode : Node :=
  { name := "b"
    delay := 0
    inputs := [{ name := "ib", connection := some ⟨"up", "o1"⟩ }]
    outputs := [{ name := "ob", connection := some ⟨"s", "s2"⟩ }]
    visited := false }

def fanSinkNode : Node :=
  { name := "s"
    delay := 0
    inputs := [{ name := "s1", connection := some ⟨"a", "oa"⟩ },
               { name := "s2", connection := some ⟨"b", "ob"⟩ }]
    outputs := []
    visited := false }

/-- One output of `up` is named by the two distinct inputs `ia` of `a`
and `ib` of `b` (true fan-out from a single output port). -/
def fanoutGraph : List (String × Node) :=
  [("up", fanSrcNode), ("a", fanANode), ("b", fanBNode), ("s", fanSinkNode)]

def upNode : Node :=
  { name := "u"
    delay := 1
    inputs := []
    outputs := [{ name := "o", connection := some ⟨"n", "i1"⟩ }]
    visited := false }

def twoInNode : Node :=
  { name := "n"
    delay := 0
    inputs := [{ name := "i1", connection := some ⟨"u", "o"⟩ },
               { name := "i2" }]
    outputs := []
    visited := false }

def twoInputGraph : List (String × Node) := [("u", upNode), ("n", twoInNode)]

/-- Rank function witnessing acyclicity of `twoInputGraph`. -/
def twoInputRank (x : String) : Nat := if x = "u" then 0 else 1

/-- Rank function witnessing acyclicity of `fanoutGraph`. -/
def fanoutRank (x : String) : Nat :=
  if x = "up" then 0 else if x = "s" then 2 else 1

/-- A single already-visited node, for the repeated-compile claim. -/
def staleNode : Node :=
  { name := "r"
    delay := 0
    inputs := []
    outputs := []
    visited := true }

def staleGraph : List (String × Node) := [("r", staleNode)]

/-- Conclusions of a successful `visit fuel nm s = some (s', lat, outs)`. -/
@[reducible] def VisitConcl (G : List (String × NodeSkel)) (nm : String) (s s' : St)
    (lat : Option Int) (outs : List BufferAssignment) : Prop :=
  Inv G s' ∧
  (∃ Δ, s'.order = s.order ++ Δ) ∧
  (∀ y ny, getNode s y = some ny → ny.visited = true → getNode s' y = some ny) ∧
  (∀ y ny, getNode s' y = some ny → ny.visited = false → getNode s y = some ny) ∧
  (∀ x, visitedAt s' x ↔ visitedAt s x ∨ Reach G nm x) ∧
  (∃ n', getNode s' nm = some n' ∧ n'.visited = true ∧ lat = n'.latency ∧
    outs = mkReturnOuts n')

/-- Hypothesis shape of the fuel induction: every call with the given
fuel on a node of smaller rank succeeds from an invariant-satisfying
state whose relevant unvisited nodes are fresh. -/
@[reducible] def VisitIH (G : List (String × NodeSkel)) (m : String → Nat) (fuel : Nat) : Prop :=
  ∀ nm s, m nm < fuel → Inv G s → (lookupS G nm).isSome = true →
    (∀ x, Reach G nm x → ∀ nx, getNode s x = some nx → nx.visited = false →
      freshNodeB nx = true) →
    ∃ s' lat outs, visit fuel nm s = some (s', lat, outs) ∧ VisitConcl G nm s s' lat outs

/-- Conclusions of the input loop for the frame node's ports. -/
@[reducible] def LoopFrame (s' : St) (name : String) (node : Node) (idxs : List Nat) : Prop :=
  ∃ node', getNode s' name = some node' ∧ node'.visited = false ∧
    node'.latency = node.latency ∧ node'.name = node.name ∧
    node'.delay = node.delay ∧ node'.outputs = node.outputs ∧
    (∀ j, j ∉ idxs → node'.inputs[j]? = node.inputs[j]?) ∧
    (∀ i ∈ idxs, ∃ p p' : Port, node.inputs[i]? = some p ∧
      node'.inputs[i]? = some p' ∧ p'.name = p.name ∧
      p'.connection = p.connection ∧ p'.compensation = none ∧ InputDone s' p')

/-! ### Basic lemmas about the state primitives -/

theorem lookupN_updateN_self (g : List (String × Node)) (x : String) (f : Node → Node) :
    lookupN (updateN g x f) x = (lookupN g x).map f := by
  induction g with
  | nil => rfl
  | cons p ps ih =>
    by_cases h : p.1 = x <;> simp [lookupN, updateN, h, ih]

theorem lookupN_updateN_ne (g : List (String × Node)) (x y : String) (f : Node → Node)
    (h : y ≠ x) : lookupN (updateN g x f) y = lookupN g y := by
  induction g with
  | nil => rfl
  | cons p ps ih =>
    by_cases hp : p.1 = x
    · have h2 : ¬(x = y) := fun hc => h hc.symm
      simp [lookupN, updateN, hp, h2, ih]
    · simp [lookupN, updateN, hp, ih]

theorem skel_updateN (g : List (String × Node)) (x : String) (f : Node → Node)
    (hf : ∀ n, nskel (f n) = nskel n) : skel (updateN g x f) = skel g := by
  induction g with
  | nil => rfl
  | cons p ps ih =>
    by_cases h : p.1 = x <;> simp [skel, updateN, h, hf] <;>
      simpa [skel] using ih

theorem lookupS_skel (g : List (String × Node)) (x : String) :
    lookupS (skel g) x = (lookupN g x).map nskel := by
  induction g with
  | nil => rfl
  | cons p ps ih =>
    by_cases h : p.1 = x <;> simp [lookupS, skel, lookupN, h] <;>
      simpa [skel] using ih

theorem lookupS_mem {G : List (String × NodeSkel)} {x : String} {ns : NodeSkel}
    (h : lookupS G x = some ns) : (x, ns) ∈ G := by
  induction G with
  | nil => simp [lookupS] at h
  | cons p ps ih =>
    by_cases hp : p.1 = x
    · simp [lookupS, hp] at h
      have hpx : p = (x, ns) := by
        obtain ⟨p1, p2⟩ := p
        simp only at hp h
        rw [hp, h]
      rw [← hpx]
      exact List.mem_cons_self _ _
    · simp [lookupS, hp] at h
      exact List.mem_cons_of_mem _ (ih h)

theorem modifyAt_getElem? (l : List α) (i j : Nat) (f : α → α) :
    (modifyAt l i f)[j]? = if j = i then (l[j]?).map f else l[j]? := by
  induction l generalizing i j with
  | nil => simp [modifyAt]
  | cons a as ih =>
    cases i with
    | zero =>
      cases j with
      | zero => simp [modifyAt]
      | succ j => simp [modifyAt]
    | succ i =>
      cases j with
      | zero => simp [modifyAt]
      | succ j => simpa [modifyAt, Nat.succ_inj] using ih i j

theorem length_modifyAt (l : List α) (i : Nat) (f : α → α) :
    (modifyAt l i f).length = l.length := by
  induction l generalizing i with
  | nil => rfl
  | cons a as ih =>
    cases i with
    | zero => simp [modifyAt]
    | succ i => simp [modifyAt, ih]

theorem acquireBuffer_nodes (s : St) : (acquireBuffer s).1.nodes = s.nodes := by
  cases h : s.bufferStack <;> simp [acquireBuffer, h]

theorem acquireBuffer_order (s : St) : (acquireBuffer s).1.order = s.order := by
  cases h : s.bufferStack <;> simp [acquireBuffer, h]

theorem releaseBuffer_nodes (s : St) (b : Nat) : (releaseBuffer s b).nodes = s.nodes := rfl

theorem releaseBuffer_order (s : St) (b : Nat) : (releaseBuffer s b).order = s.order := rfl

theorem updateNode_order (s : St) (x : String) (f : Node → Node) :
    (updateNode s x f).order = s.order := rfl

theorem getNode_updateNode_self (s : St) (x : String) (f : Node → Node) :
    getNode (updateNode s x f) x = (getNode s x).map f :=
  lookupN_updateN_self s.nodes x f

theorem getNode_updateNode_ne (s : St) (x y : String) (f : Node → Node) (h : y ≠ x) :
    getNode (updateNode s x f) y = getNode s y :=
  lookupN_updateN_ne s.nodes x y f h

/-! ### Elimination lemmas for the boolean well-formedness predicates -/

theorem closedB_spec {G : List (String × NodeSkel)} (h : closedB G = true)
    {x : String} {ns : NodeSkel} (hx : (x, ns) ∈ G) {p : PortSkel} (hp : p ∈ ns.inputs)
    {c : Conn} (hc : p.connection = some c) : (lookupS G c.node).isSome = true := by
  rw [closedB, List.all_eq_true] at h
  have h2 := List.all_eq_true.mp (h _ hx) p hp
  simpa [hc] using h2

theorem lookupOKB_spec {G : List (String × NodeSkel)} (h : lookupOKB G = true)
    {x : String} {ns : NodeSkel} (hx : (x, ns) ∈ G) {p : PortSkel} (hp : p ∈ ns.inputs)
    {c : Conn} (hc : p.connection = some c) :
    ∃ u, lookupS G c.node = some u ∧ ∃ o ∈ u.outputs, downName o = p.name := by
  rw [lookupOKB, List.all_eq_true] at h
  have h2 := List.all_eq_true.mp (h _ hx) p hp
  rw [hc] at h2
  split at h2
  next c' heq =>
    injection heq with heq2
    subst heq2
    split at h2
    next u heq3 =>
      simp only [List.any_eq_true, beq_iff_eq] at h2
      obtain ⟨o, ho, hdn⟩ := h2
      exact ⟨u, heq3, o, ho, hdn⟩
    next => simp at h2
  next heq => exact absurd heq (by simp)

theorem measB_spec {G : List (String × NodeSkel)} {m : String → Nat} (h : measB G m = true)
    {x : String} {ns : NodeSkel} (hx : (x, ns) ∈ G) {p : PortSkel} (hp : p ∈ ns.inputs)
    {c : Conn} (hc : p.connection = some c) : m c.node < m x := by
  rw [measB, List.all_eq_true] at h
  have h2 := List.all_eq_true.mp (h _ hx) p hp
  rw [hc] at h2
  exact of_decide_eq_true h2

theorem freshB_spec {g : List (String × Node)} (h : freshB g = true)
    {x : String} {n : Node} (hx : lookupN g x = some n) : freshNodeB n = true := by
  rw [freshB, List.all_eq_true] at h
  induction g with
  | nil => simp [lookupN] at hx
  | cons p ps ih =>
    by_cases hp : p.1 = x
    · simp [lookupN, hp] at hx
      exact hx ▸ h _ (List.mem_cons_self _ _)
    · simp [lookupN, hp] at hx
      exact ih (fun a ha => h a (List.mem_cons_of_mem _ ha)) hx

theorem freshNodeB_spec {n : Node} (h : freshNodeB n = true) :
    n.latency = none ∧ n.visited = false ∧
      (∀ p ∈ n.inputs, p.latency = none ∧ p.compensation = none ∧ p.buffer = none) ∧
      (∀ p ∈ n.outputs, p.latency = none ∧ p.compensation = none ∧ p.buffer = none) := by
  rw [freshNodeB] at h
  simp only [Bool.and_eq_true, beq_iff_eq, Bool.not_eq_true', List.all_eq_true] at h
  obtain ⟨⟨⟨h1, h2⟩, h3⟩, h4⟩ := h
  refine ⟨h1, h2, fun p hp => ?_, fun p hp => ?_⟩
  · have := h3 p hp
    rw [freshPortB] at this
    simpa [and_assoc] using this
  · have := h4 p hp
    rw [freshPortB] at this
    simpa [and_assoc] using this

/-! ### Lemmas about latency folds -/

theorem foldl_jmax_map_some (lats : List Int) (a : Int) :
    (lats.map some).foldl jmax (some a) = some (lats.foldl max a) := by
  induction lats generalizing a with
  | nil => rfl
  | cons x xs ih => simp [jmax, ih]

theorem le_foldl_max (lats : List Int) (a : Int) : a ≤ lats.foldl max a := by
  induction lats generalizing a with
  | nil => exact le_refl a
  | cons x xs ih => exact le_trans (le_max_left a x) (ih (max a x))

theorem mem_le_foldl_max (lats : List Int) (a : Int) :
    ∀ x ∈ lats, x ≤ lats.foldl max a := by
  induction lats generalizing a with
  | nil => intro x hx; simp at hx
  | cons y ys ih =>
    intro x hx
    rcases List.mem_cons.mp hx with h | h
    · subst h
      exact le_trans (le_max_right a x) (le_foldl_max ys (max a x))
    · exact ih (max a y) x h

/-! ### Reachability lemmas -/

theorem reach_measure_le {G : List (String × NodeSkel)} {m : String → Nat}
    (hm : measB G m = true) {a b : String} (h : Reach G a b) : m b ≤ m a := by
  induction h with
  | refl a => exact le_refl _
  | step ns p c hl hp hc _ ih =>
    exact le_trans ih (Nat.le_of_lt (measB_spec hm (lookupS_mem hl) hp hc))

theorem reach_visited {G : List (String × NodeSkel)} {s : St} (hskel : skel s.nodes = G)
    (hclosedV : ∀ x n, getNode s x = some n → n.visited = true →
      ∀ p ∈ n.inputs, ∀ c, p.connection = some c → visitedAt s c.node)
    {a x : String} (ha : visitedAt s a) (h : Reach G a x) : visitedAt s x := by
  induction h with
  | refl a => exact ha
  | step ns p c hl hp hc _ ih =>
    rename_i a' b'
    obtain ⟨n, hn, hv⟩ := ha
    rw [getNode] at hn
    rw [← hskel, lookupS_skel, hn] at hl
    simp only [Option.map_some'] at hl
    have hns : ns = nskel n := by injection hl with h2; exact h2.symm
    subst hns
    obtain ⟨q, hq, hpq⟩ := List.mem_map.mp (by simpa [nskel] using hp)
    have hqc : q.connection = some c := by
      have : (pskel q).connection = some c := hpq ▸ hc
      simpa [pskel] using this
    exact ih (hclosedV _ _ hn hv q hq c hqc)

/-! ### Stability of the invariants under state evolution -/

theorem getNode_congr {s s' : St} (h : s'.nodes = s.nodes) (y : String) :
    getNode s' y = getNode s y := by
  unfold getNode
  rw [h]

theorem visitedAt_congr {s s' : St} (h : s'.nodes = s.nodes) (x : String) :
    visitedAt s' x ↔ visitedAt s x := by
  unfold visitedAt getNode
  rw [h]

theorem NodeDone_mono {s s' : St}
    (hpres : ∀ y ny, getNode s y = some ny → ny.visited = true → getNode s' y = some ny)
    {n : Node} (h : NodeDone s n) : NodeDone s' n := by
  refine ⟨h.lat, ?_, h.unconn, h.outs⟩
  intro p hp c hc
  obtain ⟨u, hu, huv, hl, hb⟩ := h.conn p hp c hc
  exact ⟨u, hpres _ _ hu huv, huv, hl, hb⟩

theorem InputDone_mono {s s' : St}
    (hpres : ∀ y ny, getNode s y = some ny → ny.visited = true → getNode s' y = some ny)
    {p : Port} (h : InputDone s p) : InputDone s' p := by
  refine ⟨?_, h.2⟩
  intro c hc
  obtain ⟨u, hu, huv, hl, hb⟩ := h.1 c hc
  exact ⟨u, hpres _ _ hu huv, huv, hl, hb⟩

theorem Inv_congr {G : List (String × NodeSkel)} {s s' : St}
    (h1 : s'.nodes = s.nodes) (h2 : s'.order = s.order) (hI : Inv G s) : Inv G s' := by
  obtain ⟨hskel, hmem, hnodup, htop, hcl, hsteps, hdata⟩ := hI
  have hpres : ∀ y ny, getNode s y = some ny → ny.visited = true → getNode s' y = some ny :=
    fun y ny h _ => (getNode_congr h1 y).symm ▸ h
  refine ⟨?_, ?_, ?_, ?_, ?_, ?_, ?_⟩
  · rw [h1]; exact hskel
  · intro x; rw [h2, visitedAt_congr h1]; exact hmem x
  · rw [h2]; exact hnodup
  · rw [h2]
    exact htop
  · intro x n hg hv p hp c hc
    rw [visitedAt_congr h1]
    exact hcl x n ((getNode_congr h1 x) ▸ hg) hv p hp c hc
  · intro st hst
    rw [h2] at hst
    obtain ⟨n, hn, hv, he⟩ := hsteps st hst
    exact ⟨n, (getNode_congr h1 st.node).symm ▸ hn, hv, he⟩
  · intro x n hg hv
    exact NodeDone_mono hpres (hdata x n ((getNode_congr h1 x) ▸ hg) hv)

theorem getNode_visited_update {s : St} {name : String} {f : Node → Node}
    (hunv : ¬ visitedAt s name) :
    ∀ y ny, getNode s y = some ny → ny.visited = true →
      getNode (updateNode s name f) y = some ny := by
  intro y ny h hv
  by_cases hy : y = name
  · exact absurd ⟨ny, hy ▸ h, hv⟩ hunv
  · rw [getNode_updateNode_ne _ _ _ _ hy]; exact h

theorem visitedAt_updateNode (s : St) (name : String) (f : Node → Node)
    (hvis : ∀ n, (f n).visited = n.visited) (x : String) :
    visitedAt (updateNode s name f) x ↔ visitedAt s x := by
  unfold visitedAt
  by_cases hx : x = name
  · subst hx
    rw [getNode_updateNode_self]
    cases h : getNode s x with
    | none => simp
    | some n => simp [hvis n]
  · rw [getNode_updateNode_ne _ _ _ _ hx]

theorem Inv_update_unvisited {G : List (String × NodeSkel)} {s : St} {name : String}
    {f : Node → Node} (hI : Inv G s) (hunv : ¬ visitedAt s name)
    (hsk : ∀ n, nskel (f n) = nskel n) (hvis : ∀ n, (f n).visited = n.visited) :
    Inv G (updateNode s name f) := by
  obtain ⟨hskel, hmem, hnodup, htop, hcl, hsteps, hdata⟩ := hI
  refine ⟨?_, ?_, ?_, ?_, ?_, ?_, ?_⟩
  · show skel (updateN s.nodes name f) = G
    rw [skel_updateN _ _ _ hsk]; exact hskel
  · intro x
    rw [updateNode_order, visitedAt_updateNode _ _ _ hvis]
    exact hmem x
  · rw [updateNode_order]; exact hnodup
  · intro i hi b hd
    rw [updateNode_order] at hi ⊢
    exact htop i hi b hd
  · intro x n hg hv p hp c hc
    rw [visitedAt_updateNode _ _ _ hvis]
    by_cases hx : x = name
    · subst hx
      rw [getNode_updateNode_self] at hg
      cases h0 : getNode s x with
      | none => rw [h0] at hg; simp at hg
      | some n0 =>
        rw [h0] at hg
        simp only [Option.map_some'] at hg
        have hn : n = f n0 := by injection hg with h2; exact h2.symm
        rw [hn, hvis] at hv
        exact absurd ⟨n0, h0, hv⟩ hunv
    · rw [getNode_updateNode_ne _ _ _ _ hx] at hg
      exact hcl x n hg hv p hp c hc
  · intro st hst
    rw [updateNode_order] at hst
    obtain ⟨n, hn, hv, he⟩ := hsteps st hst
    exact ⟨n, getNode_visited_update hunv _ _ hn hv, hv, he⟩
  · intro x n hg hv
    by_cases hx : x = name
    · subst hx
      rw [getNode_updateNode_self] at hg
      cases h0 : getNode s x with
      | none => rw [h0] at hg; simp at hg
      | some n0 =>
        rw [h0] at hg
        simp only [Option.map_some'] at hg
        have hn : n = f n0 := by injection hg with h2; exact h2.symm
        rw [hn, hvis] at hv
        exact absurd ⟨n0, h0, hv⟩ hunv
    · rw [getNode_updateNode_ne _ _ _ _ hx] at hg
      exact NodeDone_mono (getNode_visited_update hunv) (hdata x n hg hv)

/-! ### Characterizations of the traversal's building blocks -/

theorem map_modifyAt_eq {l : List α} {i : Nat} {f : α → α} {g : α → β}
    (h : ∀ a, g (f a) = g a) : (modifyAt l i f).map g = l.map g := by
  induction l generalizing i with
  | nil => rfl
  | cons a as ih =>
    cases i with
    | zero => simp [modifyAt, h]
    | succ i => simp [modifyAt, ih]

theorem exists_map_some {l : List (Option Int)} (h : ∀ x ∈ l, ∃ v, x = some v) :
    ∃ vs : List Int, l = vs.map some := by
  induction l with
  | nil => exact ⟨[], rfl⟩
  | cons x xs ih =>
    obtain ⟨v, hv⟩ := h x (List.mem_cons_self _ _)
    obtain ⟨vs, hvs⟩ := ih fun y hy => h y (List.mem_cons_of_mem _ hy)
    exact ⟨v :: vs, by rw [hv, hvs]; rfl⟩

theorem acquireOutputs_zero (name : String) (s : St) : acquireOutputs name 0 s = s := rfl

theorem acquireOutputs_succ (name : String) (k : Nat) (s : St) :
    acquireOutputs name (k + 1) s =
      (let p := acquireBuffer (acquireOutputs name k s)
       updateNode p.1 name fun n =>
         { n with outputs := modifyAt n.outputs k fun q => { q with buffer := some p.2 } }) := by
  unfold acquireOutputs
  rw [List.range_succ, List.foldl_append]
  rfl

theorem acquireOutputs_spec (name : String) (k : Nat) (s : St) {node : Node}
    (hget : getNode s name = some node) :
    (acquireOutputs name k s).order = s.order ∧
    (∀ y, y ≠ name → getNode (acquireOutputs name k s) y = getNode s y) ∧
    ∃ n', getNode (acquireOutputs name k s) name = some n' ∧
      n'.name = node.name ∧ n'.delay = node.delay ∧ n'.latency = node.latency ∧
      n'.visited = node.visited ∧ n'.inputs = node.inputs ∧
      (∀ j, k ≤ j → n'.outputs[j]? = node.outputs[j]?) ∧
      (∀ j, j < k → ∃ b, n'.outputs[j]? =
        (node.outputs[j]?).map fun q => { q with buffer := some b }) := by
  induction k with
  | zero =>
    refine ⟨rfl, fun y _ => rfl, node, hget, rfl, rfl, rfl, rfl, rfl, fun j _ => rfl, ?_⟩
    intro j hj
    exact absurd hj (Nat.not_lt_zero j)
  | succ k ih =>
    obtain ⟨hord, hne, n', hn', hname, hdelay, hlat, hvis, hin, hge, hlt⟩ := ih
    rw [acquireOutputs_succ]
    set sk := acquireOutputs name k s with hsk
    set p := acquireBuffer sk with hp
    have hnodes : p.1.nodes = sk.nodes := acquireBuffer_nodes sk
    refine ⟨?_, ?_, ?_⟩
    · rw [updateNode_order, acquireBuffer_order, hord]
    · intro y hy
      rw [getNode_updateNode_ne _ _ _ _ hy, getNode_congr hnodes, hne y hy]
    · refine ⟨{ n' with
          outputs := modifyAt n'.outputs k fun q => { q with buffer := some p.2 } },
        ?_, hname, hdelay, hlat, hvis, hin, ?_, ?_⟩
      · rw [getNode_updateNode_self, getNode_congr hnodes, hn']
        rfl
      · intro j hj
        have hjk : j ≠ k := by omega
        show (modifyAt n'.outputs k fun q => { q with buffer := some p.2 })[j]? = _
        rw [modifyAt_getElem?, if_neg hjk]
        exact hge j (by omega)
      · intro j hj
        show ∃ b, (modifyAt n'.outputs k fun q => { q with buffer := some p.2 })[j]? = _
        by_cases hjk : j = k
        · subst hjk
          rw [modifyAt_getElem?, if_pos rfl, hge j (le_refl j)]
          exact ⟨p.2, rfl⟩
        · rw [modifyAt_getElem?, if_neg hjk]
          exact hlt j (by omega)

theorem nskel_set_out_buffer (k : Nat) (b : Nat) (n : Node) :
    nskel { n with outputs := modifyAt n.outputs k fun q => { q with buffer := some b } } =
      nskel n := by
  have h : (modifyAt n.outputs k fun q => { q with buffer := some b }).map pskel =
      n.outputs.map pskel := map_modifyAt_eq fun a => rfl
  simp [nskel, h]

theorem Inv_acquireOutputs {G : List (String × NodeSkel)} {s : St} {name : String}
    (k : Nat) (hI : Inv G s) (hunv : ¬ visitedAt s name) :
    Inv G (acquireOutputs name k s) ∧
      (∀ x, visitedAt (acquireOutputs name k s) x ↔ visitedAt s x) := by
  induction k with
  | zero => exact ⟨hI, fun x => Iff.rfl⟩
  | succ k ih =>
    obtain ⟨ihI, ihv⟩ := ih
    have heq : acquireOutputs name (k + 1) s =
        updateNode (acquireBuffer (acquireOutputs name k s)).1 name fun n =>
          { n with outputs := modifyAt n.outputs k fun q =>
              { q with buffer := some (acquireBuffer (acquireOutputs name k s)).2 } } := by
      rw [acquireOutputs_succ]
    rw [heq]
    set sk := acquireOutputs name k s with hsk
    have hnodes : (acquireBuffer sk).1.nodes = sk.nodes := acquireBuffer_nodes sk
    have hord : (acquireBuffer sk).1.order = sk.order := acquireBuffer_order sk
    have hI2 : Inv G (acquireBuffer sk).1 := Inv_congr hnodes hord ihI
    have hunv2 : ¬ visitedAt (acquireBuffer sk).1 name := by
      rw [visitedAt_congr hnodes, ihv]
      exact hunv
    refine ⟨Inv_update_unvisited hI2 hunv2 (fun n => nskel_set_out_buffer _ _ n)
      (fun n => rfl), ?_⟩
    intro x
    exact Iff.trans (visitedAt_updateNode (acquireBuffer sk).1 name
      (fun n => { n with outputs := modifyAt n.outputs k fun q =>
        { q with buffer := some (acquireBuffer sk).2 } }) (fun n => rfl) x)
      (Iff.trans (visitedAt_congr hnodes x) (ihv x))

theorem releaseOutputs_fold_nodes (l : List Port) (s : St) :
    (l.foldl (fun s p => match p.buffer with | some b => releaseBuffer s b | none => s)
      s).nodes = s.nodes := by
  induction l generalizing s with
  | nil => rfl
  | cons p ps ih =>
    rw [List.foldl_cons, ih]
    cases p.buffer <;> rfl

theorem releaseOutputs_fold_order (l : List Port) (s : St) :
    (l.foldl (fun s p => match p.buffer with | some b => releaseBuffer s b | none => s)
      s).order = s.order := by
  induction l generalizing s with
  | nil => rfl
  | cons p ps ih =>
    rw [List.foldl_cons, ih]
    cases p.buffer <;> rfl

theorem releaseOutputs_nodes (name : String) (s : St) :
    (releaseOutputs name s).nodes = s.nodes := by
  unfold releaseOutputs
  cases getNode s name with
  | none => rfl
  | some node => exact releaseOutputs_fold_nodes node.outputs s

theorem releaseOutputs_order (name : String) (s : St) :
    (releaseOutputs name s).order = s.order := by
  unfold releaseOutputs
  cases getNode s name with
  | none => rfl
  | some node => exact releaseOutputs_fold_order node.outputs s

theorem finishNode_spec (name : String) (s : St) {node : Node}
    (hget : getNode s name = some node) :
    ∃ n2 : Node,
      (n2.name = node.name ∧ n2.delay = node.delay ∧ n2.visited = node.visited ∧
        n2.outputs = node.outputs ∧
        (∃ L, ((node.inputs.map (·.latency)).foldl jmax (some 0)) = L ∧
          n2.latency = jadd L (some node.delay) ∧
          n2.inputs = node.inputs.map (compPort L))) ∧
      (finishNode name s).order = s.order ++ [mkStep name n2] ∧
      getNode (finishNode name s) name = some { n2 with visited := true } ∧
      (∀ y, y ≠ name → getNode (finishNode name s) y = getNode s y) := by
  have hfn : finishNode name s = finishNodeCore name node s := by
    unfold finishNode
    rw [hget]
  set L := (node.inputs.map (·.latency)).foldl jmax (some 0) with hL
  set n2 : Node :=
    { node with inputs := node.inputs.map (compPort L)
                latency := jadd L (some node.delay) } with hn2
  refine ⟨n2, ⟨rfl, rfl, rfl, rfl, L, rfl, rfl, rfl⟩, ?_, ?_, ?_⟩
  · rw [hfn]
    unfold finishNodeCore
    rw [updateNode_order]
    rfl
  · rw [hfn]
    unfold finishNodeCore
    rw [getNode_updateNode_self]
    show ((getNode (updateNode (updateNode s name _) name _) name).map _) = _
    rw [getNode_updateNode_self, getNode_updateNode_self, hget]
    rfl
  · intro y hy
    rw [hfn]
    unfold finishNodeCore
    rw [getNode_updateNode_ne _ _ _ _ hy]
    show getNode (updateNode (updateNode s name _) name _) y = getNode s y
    rw [getNode_updateNode_ne _ _ _ _ hy, getNode_updateNode_ne _ _ _ _ hy]

theorem lookupS_of_getNode {G : List (String × NodeSkel)} {s : St}
    (hskel : skel s.nodes = G) {name : String} {n : Node}
    (h : getNode s name = some n) : lookupS G name = some (nskel n) := by
  rw [getNode] at h
  rw [← hskel, lookupS_skel, h]
  rfl

theorem getNode_of_lookupS {G : List (String × NodeSkel)} {s : St}
    (hskel : skel s.nodes = G) {name : String} {ns : NodeSkel}
    (h : lookupS G name = some ns) : ∃ n, getNode s name = some n ∧ nskel n = ns := by
  rw [← hskel, lookupS_skel] at h
  cases hg : lookupN s.nodes name with
  | none => rw [hg] at h; simp at h
  | some n =>
    rw [hg] at h
    simp only [Option.map_some'] at h
    exact ⟨n, hg, by injection h⟩

theorem reach_step_dyn {G : List (String × NodeSkel)} {s : St} {name : String}
    {node : Node} (hskel : skel s.nodes = G) (hget : getNode s name = some node)
    {p : Port} {c : Conn} {x : String} (hp : p ∈ node.inputs)
    (hc : p.connection = some c) (h : Reach G c.node x) : Reach G name x :=
  Reach.step (nskel node) (pskel p) c (lookupS_of_getNode hskel hget)
    (List.mem_map_of_mem pskel hp) hc h

theorem reach_iff {G : List (String × NodeSkel)} {name : String} {ns : NodeSkel}
    (h : lookupS G name = some ns) (x : String) :
    Reach G name x ↔ x = name ∨
      ∃ p ∈ ns.inputs, ∃ c, p.connection = some c ∧ Reach G c.node x := by
  constructor
  · intro hr
    cases hr with
    | refl => exact Or.inl rfl
    | step ns' p c hl hp hc hr' =>
      right
      rw [h] at hl
      have hns : ns' = ns := by injection hl with h2; exact h2.symm
      subst hns
      exact ⟨p, hp, c, hc, hr'⟩
  · rintro (rfl | ⟨p, hp, c, hc, hr⟩)
    · exact Reach.refl _
    · exact Reach.step ns p c h hp hc hr

theorem measure_edge {G : List (String × NodeSkel)} {m : String → Nat}
    (hm : measB G m = true) {s : St} (hskel : skel s.nodes = G) {name : String}
    {node : Node} (hget : getNode s name = some node) {p : Port} {c : Conn}
    (hp : p ∈ node.inputs) (hc : p.connection = some c) : m c.node < m name :=
  measB_spec hm (lookupS_mem (lookupS_of_getNode hskel hget))
    (List.mem_map_of_mem pskel hp) (show (pskel p).connection = some c from hc)

theorem closed_edge {G : List (String × NodeSkel)} (hcl : closedB G = true) {s : St}
    (hskel : skel s.nodes = G) {name : String} {node : Node}
    (hget : getNode s name = some node) {p : Port} {c : Conn}
    (hp : p ∈ node.inputs) (hc : p.connection = some c) :
    (lookupS G c.node).isSome = true :=
  closedB_spec hcl (lookupS_mem (lookupS_of_getNode hskel hget))
    (List.mem_map_of_mem pskel hp) (show (pskel p).connection = some c from hc)

theorem nskel_modify_input (i : Nat) (g : Port → Port)
    (hg : ∀ q, pskel (g q) = pskel q) (n : Node) :
    nskel { n with inputs := modifyAt n.inputs i g } = nskel n := by
  have h : (modifyAt n.inputs i g).map pskel = n.inputs.map pskel := map_modifyAt_eq hg
  simp [nskel, h]

theorem modifyAt_modifyAt (l : List α) (i : Nat) (f g : α → α) :
    modifyAt (modifyAt l i f) i g = modifyAt l i fun a => g (f a) := by
  induction l generalizing i with
  | nil => rfl
  | cons a as ih =>
    cases i with
    | zero => rfl
    | succ i => simp [modifyAt, ih]

/-! ### The main traversal lemma

`VisitConcl` packages what one completed `visit` call guarantees, and
`visitInputs_ok` pushes it through the input loop of lines 96–113. -/

theorem visitInputs_ok (G : List (String × NodeSkel)) (m : String → Nat)
    (hcl : closedB G = true) (hm : measB G m = true) (fuel : Nat)
    (IH : VisitIH G m fuel) :
    ∀ idxs name s node,
      Inv G s → getNode s name = some node → node.visited = false →
      idxs.Nodup →
      (∀ i ∈ idxs, ∃ p : Port, node.inputs[i]? = some p ∧ p.latency = none ∧
        p.compensation = none ∧ p.buffer = none) →
      (∀ i ∈ idxs, ∀ p : Port, node.inputs[i]? = some p → ∀ c, p.connection = some c →
        m c.node < fuel ∧
        ∀ x, Reach G c.node x → ∀ nx, getNode s x = some nx → nx.visited = false →
          freshNodeB nx = true) →
      ∃ s', visitInputsF (visit fuel) name idxs s = some s' ∧ Inv G s' ∧
        (∃ Δ, s'.order = s.order ++ Δ) ∧
        (∀ y ny, getNode s y = some ny → ny.visited = true → getNode s' y = some ny) ∧
        (∀ y ny, y ≠ name → getNode s' y = some ny → ny.visited = false →
          getNode s y = some ny) ∧
        (∀ x, visitedAt s' x ↔ visitedAt s x ∨ ∃ i ∈ idxs, ∃ p : Port,
          node.inputs[i]? = some p ∧ ∃ c, p.connection = some c ∧ Reach G c.node x) ∧
        LoopFrame s' name node idxs := by
  intro idxs
  induction idxs with
  | nil =>
    intro name s node hI hget hvis _ _ _
    refine ⟨s, rfl, hI, ⟨[], (List.append_nil _).symm⟩, fun y ny h _ => h,
      fun y ny _ h _ => h, ?_, node, hget, hvis, rfl, rfl, rfl, rfl,
      fun j _ => rfl, fun i hi => absurd hi (List.not_mem_nil i)⟩
    intro x
    simp
  | cons i rest ihr =>
    intro name s node hI hget hvis hnd hfresh hconn
    have hi0 : i ∈ i :: rest := List.mem_cons_self i rest
    obtain ⟨p, hp, hpl, hpc, hpb⟩ := hfresh i hi0
    have hpmem : p ∈ node.inputs := List.getElem?_mem hp
    have hinotr : i ∉ rest := (List.nodup_cons.mp hnd).1
    have hndr : rest.Nodup := (List.nodup_cons.mp hnd).2
    have hunvs : ¬ visitedAt s name := by
      rintro ⟨n', hn', hv'⟩
      rw [hget] at hn'
      have h2 : node = n' := by injection hn'
      rw [← h2, hvis] at hv'
      exact Bool.false_ne_true hv'
    cases hcase : p.connection with
    | some conn =>
      obtain ⟨hmlt, hfr⟩ := hconn i hi0 p hp conn hcase
      have hedge : m conn.node < m name := measure_edge hm hI.hskel hget hpmem hcase
      have hnoreach : ¬ Reach G conn.node name := fun hr => by
        have := reach_measure_le hm hr
        omega
      obtain ⟨s1, lat, outs, hvisit, hI1, ⟨Δ1, hΔ1⟩, hpres1, hunch1, hviff1, un, hun,
        hunvis, hlat, houts⟩ :=
        IH conn.node s hmlt hI (closed_edge hcl hI.hskel hget hpmem hcase) hfr
      -- the frame node is untouched by the recursive visit
      have hnv1 : ¬ visitedAt s1 name := by
        intro hv1
        rcases (hviff1 name).mp hv1 with h | h
        · exact hunvs h
        · exact hnoreach h
      have hgs1 : getNode s1 name = some node := by
        obtain ⟨n1, hn1, _⟩ := getNode_of_lookupS hI1.hskel (lookupS_of_getNode hI.hskel hget)
        cases hb : n1.visited with
        | true => exact absurd ⟨n1, hn1, hb⟩ hnv1
        | false =>
          have h3 : getNode s name = some n1 := hunch1 name n1 hn1 hb
          rw [hget] at h3
          have h4 : node = n1 := by injection h3
          rw [hn1, ← h4]
      -- apply the update for this input port
      set bf : Option Nat := ((outs.find? fun assn => assn.port == p.name).bind (·.buffer))
        with hbf
      set f : Node → Node := fun n =>
        { n with inputs := modifyAt n.inputs i fun q =>
            { q with latency := lat, buffer := bf } } with hf
      set s2 := updateNode s1 name f with hs2
      have hgs2 : getNode s2 name = some (f node) := by
        rw [hs2, getNode_updateNode_self, hgs1]
        rfl
      have hI2 : Inv G s2 :=
        Inv_update_unvisited hI1 hnv1
          (fun n => nskel_modify_input i
            (fun q => { q with latency := lat, buffer := bf }) (fun q => rfl) n)
          (fun n => rfl)
      have hnv2 : ¬ visitedAt s2 name := by
        intro hv2
        exact hnv1 ((visitedAt_updateNode s1 name f (fun n => rfl) name).mp hv2)
      -- upstream node facts, carried to s2
      have hgun2 : getNode s2 conn.node = some un :=
        getNode_visited_update hnv1 conn.node un hun hunvis
      -- recurse on the remaining inputs
      have hrec := ihr name s2 (f node) hI2 hgs2 (by rw [hf]; exact hvis) hndr ?hfr2 ?hcn2
      case hfr2 =>
        intro j hj
        obtain ⟨q, hq, hql, hqc, hqb⟩ := hfresh j (List.mem_cons_of_mem i hj)
        refine ⟨q, ?_, hql, hqc, hqb⟩
        show (modifyAt node.inputs i _)[j]? = some q
        rw [modifyAt_getElem?, if_neg (fun he : _ = i => hinotr (he ▸ hj))]
        exact hq
      case hcn2 =>
        intro j hj q hq c hc
        have hq0 : node.inputs[j]? = some q := by
          have : (modifyAt node.inputs i fun q =>
              { q with latency := lat, buffer := bf })[j]? = some q := hq
          rwa [modifyAt_getElem?, if_neg (fun he : _ = i => hinotr (he ▸ hj))] at this
        obtain ⟨hm2, hf2⟩ := hconn j (List.mem_cons_of_mem i hj) q hq0 c hc
        refine ⟨hm2, ?_⟩
        intro x hrx nx hgx hnxv
        have hxne : x ≠ name := by
          intro hxeq
          have hr2 : Reach G c.node name := hxeq ▸ hrx
          have hedge2 : m c.node < m name :=
            measure_edge hm hI.hskel hget (List.getElem?_mem hq0) hc
          have := reach_measure_le hm hr2
          omega
        rw [hs2, getNode_updateNode_ne _ _ _ _ hxne] at hgx
        exact hf2 x hrx nx (hunch1 x nx hgx hnxv) hnxv
      obtain ⟨s', hcomp, hI', ⟨Δ2, hΔ2⟩, hpres2, hunch2, hviff2, hframe⟩ := hrec
      refine ⟨s', ?_, hI', ?_, ?_, ?_, ?_, ?_⟩
      -- the computation reduces to the recursive call
      · show visitInputsF (visit fuel) name (i :: rest) s = some s'
        simp only [visitInputsF, hget, hp, hcase, hvisit]
        exact hcomp
      · exact ⟨Δ1 ++ Δ2, by rw [hΔ2, hs2, updateNode_order, hΔ1, List.append_assoc]⟩
      · intro y ny hy hyv
        exact hpres2 y ny (getNode_visited_update hnv1 y ny (hpres1 y ny hy hyv) hyv) hyv
      · intro y ny hyne hy hyv
        have h5 := hunch2 y ny hyne hy hyv
        rw [hs2, getNode_updateNode_ne _ _ _ _ hyne] at h5
        exact hunch1 y ny h5 hyv
      · intro x
        rw [hviff2 x]
        have hv2x : visitedAt s2 x ↔ visitedAt s x ∨ Reach G conn.node x := by
          rw [hs2]
          rw [visitedAt_updateNode s1 name f (fun n => rfl) x]
          exact hviff1 x
        rw [hv2x]
        constructor
        · rintro ((h | h) | h)
          · exact Or.inl h
          · exact Or.inr ⟨i, hi0, p, hp, conn, hcase, h⟩
          · obtain ⟨j, hj, q, hq, c, hc, hr⟩ := h
            have hq0 : node.inputs[j]? = some q := by
              have hq' : (modifyAt node.inputs i fun q =>
                  { q with latency := lat, buffer := bf })[j]? = some q := hq
              rwa [modifyAt_getElem?, if_neg (fun he : _ = i => hinotr (he ▸ hj))] at hq'
            exact Or.inr ⟨j, List.mem_cons_of_mem i hj, q, hq0, c, hc, hr⟩
        · rintro (h | ⟨j, hj, q, hq, c, hc, hr⟩)
          · exact Or.inl (Or.inl h)
          · rcases List.mem_cons.mp hj with rfl | hjr
            · rw [hp] at hq
              have hqp : q = p := by injection hq with h2; exact h2.symm
              subst hqp
              rw [hcase] at hc
              have hcc : conn = c := by injection hc
              subst hcc
              exact Or.inl (Or.inr hr)
            · refine Or.inr ⟨j, hjr, q, ?_, c, hc, hr⟩
              show (modifyAt node.inputs i _)[j]? = some q
              rw [modifyAt_getElem?, if_neg (fun he : _ = i => hinotr (he ▸ hjr))]
              exact hq
      -- the frame conclusion
      · obtain ⟨node', hgn', hnv', hlat', hname', hdelay', houts', hout_id, hin_id⟩ := hframe
        refine ⟨node', hgn', hnv', hlat', hname', hdelay', houts', ?_, ?_⟩
        · intro j hj
          have hjne : j ≠ i := fun he => hj (he ▸ hi0)
          have hjnr : j ∉ rest := fun hjr => hj (List.mem_cons_of_mem i hjr)
          rw [hout_id j hjnr]
          show (modifyAt node.inputs i _)[j]? = node.inputs[j]?
          rw [modifyAt_getElem?, if_neg hjne]
        · intro j hj
          rcases List.mem_cons.mp hj with rfl | hjr
          · -- the port processed in this step
            have hfi : (f node).inputs[j]? = some
                { p with latency := lat, buffer := bf } := by
              show (modifyAt node.inputs j _)[j]? = _
              rw [modifyAt_getElem?, if_pos rfl, hp]
              rfl
            have hfi' : node'.inputs[j]? = some { p with latency := lat, buffer := bf } := by
              rw [hout_id j hinotr]
              exact hfi
            refine ⟨p, { p with latency := lat, buffer := bf }, hp, hfi', rfl, rfl,
              by rw [hpc], ?_⟩
            constructor
            · intro c hc
              have hcc : conn = c := by rw [hcase] at hc; injection hc
              subst hcc
              have hgun' : getNode s' conn.node = some un :=
                hpres2 conn.node un hgun2 hunvis
              refine ⟨un, hgun', hunvis, hlat, ?_⟩
              show bf = _
              rw [hbf, houts]
            · intro hc
              rw [hcase] at hc
              exact absurd hc (by simp)
          · obtain ⟨q, q', hq, hq', hqn, hqc, hqcomp, hqd⟩ := hin_id j hjr
            refine ⟨q, q', ?_, hq', hqn, hqc, hqcomp, hqd⟩
            have hq0 : (modifyAt node.inputs i fun q =>
                { q with latency := lat, buffer := bf })[j]? = some q := hq
            rwa [modifyAt_getElem?, if_neg (fun he : _ = i => hinotr (he ▸ hjr))] at hq0
    | none =>
      -- unconnected input: set latency 0, acquire and immediately release
      set f1 : Node → Node := fun n =>
        { n with inputs := modifyAt n.inputs i fun q => { q with latency := some 0 } }
        with hf1
      set s1 := updateNode s name f1 with hs1
      set pb := acquireBuffer s1 with hpb
      set f2 : Node → Node := fun n =>
        { n with inputs := modifyAt n.inputs i fun q => { q with buffer := some pb.2 } }
        with hf2
      set s3 := updateNode pb.1 name f2 with hs3
      set s4 := releaseBuffer s3 pb.2 with hs4
      have hnodes_pb : pb.1.nodes = s1.nodes := acquireBuffer_nodes s1
      have hord_pb : pb.1.order = s1.order := acquireBuffer_order s1
      have hnodes4 : s4.nodes = s3.nodes := rfl
      have hord4 : s4.order = s3.order := rfl
      set nodef : Node := { node with inputs := modifyAt node.inputs i fun q =>
        { q with latency := some 0, buffer := some pb.2 } } with hnodef
      have hgs4 : getNode s4 name = some nodef := by
        rw [hs4]
        show getNode s3 name = some nodef
        rw [hs3, getNode_updateNode_self, getNode_congr hnodes_pb, hs1,
          getNode_updateNode_self, hget]
        have h6 : modifyAt (modifyAt node.inputs i fun q => { q with latency := some 0 }) i
            (fun q => { q with buffer := some pb.2 }) =
            modifyAt node.inputs i fun q =>
              { q with latency := some 0, buffer := some pb.2 } :=
          modifyAt_modifyAt _ _ _ _
        show some
            { node with
              inputs :=
                modifyAt
                    (modifyAt node.inputs i fun q => { q with latency := some 0 }) i
                    fun q => { q with buffer := some pb.2 } } =
          some nodef
        rw [h6, hnodef]
      have hnv1 : ¬ visitedAt s1 name := by
        intro hv
        exact hunvs ((visitedAt_updateNode s name f1 (fun n => rfl) name).mp hv)
      have hI1 : Inv G s1 :=
        Inv_update_unvisited hI hunvs
          (fun n => nskel_modify_input i
            (fun q => { q with latency := some 0 }) (fun q => rfl) n) (fun n => rfl)
      have hIpb : Inv G pb.1 := Inv_congr hnodes_pb hord_pb hI1
      have hnvpb : ¬ visitedAt pb.1 name := by
        intro hv
        exact hnv1 ((visitedAt_congr hnodes_pb name).mp hv)
      have hI3 : Inv G s3 :=
        Inv_update_unvisited hIpb hnvpb
          (fun n => nskel_modify_input i
            (fun q => { q with buffer := some pb.2 }) (fun q => rfl) n) (fun n => rfl)
      have hI4 : Inv G s4 := Inv_congr hnodes4 hord4 hI3
      have hnv4 : ¬ visitedAt s4 name := by
        intro hv
        exact hnvpb (((visitedAt_congr hnodes4 name).trans
          (visitedAt_updateNode pb.1 name f2 (fun n => rfl) name)).mp hv)
      have hvis_unch : ∀ x, visitedAt s4 x ↔ visitedAt s x := by
        intro x
        exact ((visitedAt_congr hnodes4 x).trans
          ((visitedAt_updateNode pb.1 name f2 (fun n => rfl) x).trans
            ((visitedAt_congr hnodes_pb x).trans
              (visitedAt_updateNode s name f1 (fun n => rfl) x))))
      have hget_unch : ∀ y, y ≠ name → getNode s4 y = getNode s y := by
        intro y hy
        rw [hs4]
        show getNode s3 y = getNode s y
        rw [hs3, getNode_updateNode_ne _ _ _ _ hy, getNode_congr hnodes_pb, hs1,
          getNode_updateNode_ne _ _ _ _ hy]
      have hrec := ihr name s4 nodef hI4 hgs4 (by rw [hnodef]; exact hvis) hndr ?hfr4 ?hcn4
      case hfr4 =>
        intro j hj
        obtain ⟨q, hq, hql, hqc, hqb⟩ := hfresh j (List.mem_cons_of_mem i hj)
        refine ⟨q, ?_, hql, hqc, hqb⟩
        show (modifyAt node.inputs i _)[j]? = some q
        rw [modifyAt_getElem?, if_neg (fun he : _ = i => hinotr (he ▸ hj))]
        exact hq
      case hcn4 =>
        intro j hj q hq c hc
        have hq0 : node.inputs[j]? = some q := by
          have hq' : (modifyAt node.inputs i fun q =>
              { q with latency := some 0, buffer := some pb.2 })[j]? = some q := hq
          rwa [modifyAt_getElem?, if_neg (fun he : _ = i => hinotr (he ▸ hj))] at hq'
        obtain ⟨hm2, hf2'⟩ := hconn j (List.mem_cons_of_mem i hj) q hq0 c hc
        refine ⟨hm2, ?_⟩
        intro x hrx nx hgx hnxv
        have hxne : x ≠ name := by
          intro hxeq
          have hr2 : Reach G c.node name := hxeq ▸ hrx
          have hedge2 : m c.node < m name :=
            measure_edge hm hI.hskel hget (List.getElem?_mem hq0) hc
          have := reach_measure_le hm hr2
          omega
        rw [hget_unch x hxne] at hgx
        exact hf2' x hrx nx hgx hnxv
      obtain ⟨s', hcomp, hI', ⟨Δ2, hΔ2⟩, hpres2, hunch2, hviff2, hframe⟩ := hrec
      refine ⟨s', ?_, hI', ?_, ?_, ?_, ?_, ?_⟩
      · show visitInputsF (visit fuel) name (i :: rest) s = some s'
        simp only [visitInputsF, hget, hp, hcase]
        exact hcomp
      · refine ⟨Δ2, ?_⟩
        rw [hΔ2, hord4, hs3, updateNode_order, hord_pb, hs1, updateNode_order]
      · intro y ny hy hyv
        have hyne : y ≠ name := by
          rintro rfl
          rw [hget] at hy
          have h2 : node = ny := by injection hy
          rw [← h2, hvis] at hyv
          exact Bool.false_ne_true hyv
        refine hpres2 y ny ?_ hyv
        rw [hget_unch y hyne]
        exact hy
      · intro y ny hyne hy hyv
        have h5 := hunch2 y ny hyne hy hyv
        rw [hget_unch y hyne] at h5
        exact h5
      · intro x
        rw [hviff2 x, hvis_unch x]
        constructor
        · rintro (h | ⟨j, hj, q, hq, c, hc, hr⟩)
          · exact Or.inl h
          · have hq0 : node.inputs[j]? = some q := by
              have hq' : (modifyAt node.inputs i fun q =>
                  { q with latency := some 0, buffer := some pb.2 })[j]? = some q := hq
              rwa [modifyAt_getElem?, if_neg (fun he : _ = i => hinotr (he ▸ hj))] at hq'
            exact Or.inr ⟨j, List.mem_cons_of_mem i hj, q, hq0, c, hc, hr⟩
        · rintro (h | ⟨j, hj, q, hq, c, hc, hr⟩)
          · exact Or.inl h
          · rcases List.mem_cons.mp hj with rfl | hjr
            · rw [hp] at hq
              have hqp : q = p := by injection hq with h2; exact h2.symm
              subst hqp
              rw [hcase] at hc
              exact absurd hc (by simp)
            · refine Or.inr ⟨j, hjr, q, ?_, c, hc, hr⟩
              show (modifyAt node.inputs i _)[j]? = some q
              rw [modifyAt_getElem?, if_neg (fun he : _ = i => hinotr (he ▸ hjr))]
              exact hq
      · obtain ⟨node', hgn', hnv', hlat', hname', hdelay', houts', hout_id, hin_id⟩ := hframe
        refine ⟨node', hgn', hnv', hlat', hname', hdelay', houts', ?_, ?_⟩
        · intro j hj
          have hjne : j ≠ i := fun he => hj (he ▸ hi0)
          have hjnr : j ∉ rest := fun hjr => hj (List.mem_cons_of_mem i hjr)
          rw [hout_id j hjnr]
          show (modifyAt node.inputs i _)[j]? = node.inputs[j]?
          rw [modifyAt_getElem?, if_neg hjne]
        · intro j hj
          rcases List.mem_cons.mp hj with rfl | hjr
          · have hfi : nodef.inputs[j]? = some
                { p with latency := some 0, buffer := some pb.2 } := by
              show (modifyAt node.inputs j _)[j]? = _
              rw [modifyAt_getElem?, if_pos rfl, hp]
              rfl
            have hfi' : node'.inputs[j]? = some
                { p with latency := some 0, buffer := some pb.2 } := by
              rw [hout_id j hinotr]
              exact hfi
            refine ⟨p, { p with latency := some 0, buffer := some pb.2 }, hp, hfi',
              rfl, rfl, by rw [hpc], ?_⟩
            constructor
            · intro c hc
              rw [hcase] at hc
              exact absurd hc (by simp)
            · intro _
              exact ⟨rfl, rfl⟩
          · obtain ⟨q, q', hq, hq', hqn, hqc, hqcomp, hqd⟩ := hin_id j hjr
            refine ⟨q, q', ?_, hq', hqn, hqc, hqcomp, hqd⟩
            have hq0 : (modifyAt node.inputs i fun q =>
                { q with latency := some 0, buffer := some pb.2 })[j]? = some q := hq
            rwa [modifyAt_getElem?, if_neg (fun he : _ = i => hinotr (he ▸ hjr))] at hq0

theorem map_pskel_map_eq (l : List Port) (g : Port → Port)
    (hg : ∀ q, pskel (g q) = pskel q) : (l.map g).map pskel = l.map pskel := by
  induction l with
  | nil => rfl
  | cons a as ih => simp [hg, ih]

theorem nskel_map_input (g : Port → Port) (hg : ∀ q, pskel (g q) = pskel q) (n : Node) :
    nskel { n with inputs := n.inputs.map g } = nskel n := by
  have h := map_pskel_map_eq n.inputs g hg
  simp [nskel, h]

theorem compPort_eq (L : Option Int) (p : Port) :
    compPort L p = if jsub L p.latency ≠ some 0
      then { p with compensation := jsub L p.latency } else p := rfl

theorem compPort_latency (L : Option Int) (p : Port) :
    (compPort L p).latency = p.latency := by
  rw [compPort_eq]
  by_cases h : jsub L p.latency ≠ some 0
  · rw [if_pos h]
  · rw [if_neg h]

theorem compPort_name (L : Option Int) (p : Port) : (compPort L p).name = p.name := by
  rw [compPort_eq]
  by_cases h : jsub L p.latency ≠ some 0
  · rw [if_pos h]
  · rw [if_neg h]

theorem compPort_connection (L : Option Int) (p : Port) :
    (compPort L p).connection = p.connection := by
  rw [compPort_eq]
  by_cases h : jsub L p.latency ≠ some 0
  · rw [if_pos h]
  · rw [if_neg h]

theorem compPort_buffer (L : Option Int) (p : Port) :
    (compPort L p).buffer = p.buffer := by
  rw [compPort_eq]
  by_cases h : jsub L p.latency ≠ some 0
  · rw [if_pos h]
  · rw [if_neg h]

theorem pskel_compPort (L : Option Int) (p : Port) : pskel (compPort L p) = pskel p := by
  rw [compPort_eq]
  by_cases h : jsub L p.latency ≠ some 0
  · rw [if_pos h]
    rfl
  · rw [if_neg h]

theorem compPort_comp {Lv l : Int} (p : Port) (hl : p.latency = some l)
    (hc : p.compensation = none) :
    (compPort (some Lv) p).compensation =
      if Lv - l = 0 then none else some (Lv - l) := by
  rw [compPort_eq, hl]
  by_cases h0 : Lv - l = 0
  · rw [if_pos h0]
    have hz : jsub (some Lv) (some l) = some 0 := by
      show some (Lv - l) = some 0
      rw [h0]
    rw [if_neg (by rw [hz]; simp)]
    exact hc
  · rw [if_neg h0]
    have hnz : jsub (some Lv) (some l) ≠ some 0 := by
      show some (Lv - l) ≠ some 0
      simp
      exact h0
    rw [if_pos hnz]
    show jsub (some Lv) (some l) = some (Lv - l)
    rfl

theorem finishNodeCore_skel (name : String) (node : Node) (s : St) :
    skel (finishNodeCore name node s).nodes = skel s.nodes := by
  unfold finishNodeCore
  show skel (updateN (updateN (updateN s.nodes name _) name _) name _) = skel s.nodes
  rw [skel_updateN, skel_updateN, skel_updateN]
  · intro n
    exact nskel_map_input _ (fun q => pskel_compPort _ q) n
  · intro n
    rfl
  · intro n
    rfl

theorem finishNode_skel (name : String) (s : St) :
    skel (finishNode name s).nodes = skel s.nodes := by
  unfold finishNode
  cases getNode s name with
  | none => rfl
  | some node => exact finishNodeCore_skel name node s

theorem length_eq_of_getElem? {l1 l2 : List α}
    (h : ∀ j : Nat, (l1[j]?).isSome = (l2[j]?).isSome) : l1.length = l2.length := by
  by_contra hne
  rcases Nat.lt_or_ge l1.length l2.length with hlt | hge
  · have h1 : l1[l1.length]? = none := List.getElem?_eq_none (le_refl _)
    have h2 : (l2[l1.length]?).isSome = true := by
      rw [List.getElem?_eq_getElem hlt]
      rfl
    rw [← h, h1] at h2
    simp at h2
  · have hlt2 : l2.length < l1.length := Nat.lt_of_le_of_ne hge fun he => hne he.symm
    have h1 : l2[l2.length]? = none := List.getElem?_eq_none (le_refl _)
    have h2 : (l1[l2.length]?).isSome = true := by
      rw [List.getElem?_eq_getElem hlt2]
      rfl
    rw [h, h1] at h2
    simp at h2

theorem visit_ok (G : List (String × NodeSkel)) (m : String → Nat)
    (hcl : closedB G = true) (hm : measB G m = true) :
    ∀ fuel, VisitIH G m fuel := by
  intro fuel
  induction fuel with
  | zero =>
    intro nm s hmf
    exact absurd hmf (Nat.not_lt_zero _)
  | succ fuel ih =>
    intro nm s hmf hI hlk hfr
    cases hlkv : lookupS G nm with
    | none => rw [hlkv] at hlk; simp at hlk
    | some ns =>
    obtain ⟨node, hget, hnsk⟩ := getNode_of_lookupS hI.hskel hlkv
    cases hvb : node.visited with
    | true =>
      refine ⟨s, node.latency, mkReturnOuts node, ?_, hI, ⟨[], (List.append_nil _).symm⟩,
        fun y ny h _ => h, fun y ny h _ => h, ?_, node, hget, hvb, rfl, rfl⟩
      · show visit (fuel + 1) nm s = some (s, node.latency, mkReturnOuts node)
        simp only [visit]
        simp only [hget]
        rw [if_pos hvb]
      · intro x
        constructor
        · exact fun h => Or.inl h
        · rintro (h | h)
          · exact h
          · exact reach_visited hI.hskel hI.hclosedV ⟨node, hget, hvb⟩ h
    | false =>
      have hunvs : ¬ visitedAt s nm := by
        rintro ⟨n', hn', hv'⟩
        rw [hget] at hn'
        have h2 : node = n' := by injection hn'
        rw [← h2, hvb] at hv'
        exact Bool.false_ne_true hv'
      obtain ⟨hlat0, _, hinfr, _⟩ := freshNodeB_spec (hfr nm (Reach.refl nm) node hget hvb)
      -- step 1: acquire a buffer for every output port
      set sa := acquireOutputs nm node.outputs.length s with hsa
      obtain ⟨hIa, hviffa⟩ := Inv_acquireOutputs node.outputs.length hI hunvs
      obtain ⟨horda, hnea, na, hgna, hnamea, hdelaya, hlata, hvisa, hina, hgea, hlta⟩ :=
        acquireOutputs_spec nm node.outputs.length s hget
      have hvisna : na.visited = false := by rw [hvisa, hvb]
      have hunva : ¬ visitedAt sa nm := fun hv => hunvs ((hviffa nm).mp hv)
      have hpres_sa : ∀ y ny, getNode s y = some ny → ny.visited = true →
          getNode sa y = some ny := by
        intro y ny hy hyv
        have hyne : y ≠ nm := by
          rintro rfl
          exact hunvs ⟨ny, hy, hyv⟩
        rw [hnea y hyne]
        exact hy
      -- step 2: the input loop
      have hfreshL : ∀ i ∈ List.range node.inputs.length, ∃ p : Port,
          na.inputs[i]? = some p ∧ p.latency = none ∧ p.compensation = none ∧
          p.buffer = none := by
        intro i hi
        have hil : i < node.inputs.length := List.mem_range.mp hi
        cases hpi : node.inputs[i]? with
        | none =>
          rw [List.getElem?_eq_getElem hil] at hpi
          exact absurd hpi (by simp)
        | some p =>
          obtain ⟨h1, h2, h3⟩ := hinfr p (List.getElem?_mem hpi)
          exact ⟨p, by rw [hina]; exact hpi, h1, h2, h3⟩
      have hconnL : ∀ i ∈ List.range node.inputs.length, ∀ p : Port,
          na.inputs[i]? = some p → ∀ c, p.connection = some c →
          m c.node < fuel ∧
          ∀ x, Reach G c.node x → ∀ nx, getNode sa x = some nx →
            nx.visited = false → freshNodeB nx = true := by
        intro i hi p hp c hc
        rw [hina] at hp
        have hpmem : p ∈ node.inputs := List.getElem?_mem hp
        have hedge : m c.node < m nm := measure_edge hm hI.hskel hget hpmem hc
        refine ⟨by omega, ?_⟩
        intro x hrx nx hgx hnxv
        have hxne : x ≠ nm := by
          intro hxeq
          have hr2 : Reach G c.node nm := hxeq ▸ hrx
          have := reach_measure_le hm hr2
          omega
        rw [hnea x hxne] at hgx
        exact hfr x (reach_step_dyn hI.hskel hget hpmem hc hrx) nx hgx hnxv
      obtain ⟨sb, hcomp, hIb, ⟨Δ, hΔ⟩, hpresb, hunchb, hviffb, node', hgn', hnv', hlatn',
        hnamen', hdelayn', houtsn', hout_id0, hin_id0⟩ :=
        visitInputs_ok G m hcl hm fuel ih (List.range node.inputs.length) nm sa na
          hIa hgna hvisna (List.nodup_range _) hfreshL hconnL
      simp only [hina] at hviffb
      have hout_id : ∀ j, j ∉ List.range node.inputs.length →
          node'.inputs[j]? = node.inputs[j]? := by
        intro j hj
        rw [hout_id0 j hj, hina]
      have hin_id : ∀ i ∈ List.range node.inputs.length, ∃ p p' : Port,
          node.inputs[i]? = some p ∧ node'.inputs[i]? = some p' ∧ p'.name = p.name ∧
          p'.connection = p.connection ∧ p'.compensation = none ∧ InputDone sb p' := by
        intro i hi
        obtain ⟨p, p', hp, h2, h3, h4, h5, h6⟩ := hin_id0 i hi
        rw [hina] at hp
        exact ⟨p, p', hp, h2, h3, h4, h5, h6⟩
      have hlen : node'.inputs.length = node.inputs.length := by
        apply length_eq_of_getElem?
        intro j
        by_cases hj : j < node.inputs.length
        · obtain ⟨p, p', hp, hp', _⟩ := hin_id j (List.mem_range.mpr hj)
          rw [hp, hp']
          rfl
        · rw [hout_id j (fun hc => hj (List.mem_range.mp hc))]
      have hunvb : ¬ visitedAt sb nm := by
        rintro ⟨n2, hn2, hv2⟩
        rw [hgn'] at hn2
        have h2 : node' = n2 := by injection hn2
        rw [← h2, hnv'] at hv2
        exact Bool.false_ne_true hv2
      -- step 3: release the output buffers
      set sc := releaseOutputs nm sb with hsc
      have hscn : sc.nodes = sb.nodes := releaseOutputs_nodes nm sb
      have hsco : sc.order = sb.order := releaseOutputs_order nm sb
      have hIc : Inv G sc := Inv_congr hscn hsco hIb
      have hgc : getNode sc nm = some node' := by
        rw [getNode_congr hscn]
        exact hgn'
      have hunvc : ¬ visitedAt sc nm := fun hv => hunvb ((visitedAt_congr hscn nm).mp hv)
      -- steps 4-6: finish the node
      obtain ⟨n2, ⟨hn2name, hn2delay, hn2vis, hn2outs, Lopt, hLopt, hn2lat, hn2in⟩,
        hordd, hgd, hned⟩ := finishNode_spec nm sc hgc
      set sd := finishNode nm sc with hsd
      set fd : Node := { n2 with visited := true } with hfd
      -- all input latencies of the processed node are resolved
      have hlats : ∀ j, j < node'.inputs.length → ∃ p' : Port,
          node'.inputs[j]? = some p' ∧ p'.compensation = none ∧ InputDone sb p' ∧
          ∃ l, p'.latency = some l := by
        intro j hj
        rw [hlen] at hj
        obtain ⟨p, p', hp, hp', hpn, hpcn, hpcomp, hpd⟩ := hin_id j (List.mem_range.mpr hj)
        refine ⟨p', hp', hpcomp, hpd, ?_⟩
        cases hcn : p'.connection with
        | some c =>
          obtain ⟨u, hu, huv, hlatu, _⟩ := hpd.1 c hcn
          obtain ⟨Lu, _, hulat, _⟩ := (hIb.hdata c.node u hu huv).lat
          exact ⟨Lu + u.delay, by rw [hlatu, hulat]⟩
        | none => exact ⟨0, (hpd.2 hcn).1⟩
      have hlats_mem : ∀ x ∈ node'.inputs.map (·.latency), ∃ v, x = some v := by
        intro x hx
        obtain ⟨q, hq, hxq⟩ := List.mem_map.mp hx
        obtain ⟨j, hj⟩ := List.mem_iff_getElem?.mp hq
        have hjl : j < node'.inputs.length := (List.getElem?_eq_some.mp hj).1
        obtain ⟨p', hp', _, _, l, hl⟩ := hlats j hjl
        rw [hj] at hp'
        have hqp : q = p' := by injection hp'
        exact ⟨l, by rw [← hxq, hqp]; exact hl⟩
      obtain ⟨lats, hlats_eq⟩ := exists_map_some hlats_mem
      set Lv := lats.foldl max 0 with hLv
      have hfold : (node'.inputs.map (·.latency)).foldl jmax (some 0) = some Lv := by
        rw [hlats_eq, foldl_jmax_map_some]
      have hLsome : Lopt = some Lv := by rw [← hLopt, hfold]
      -- relate fd to the loop frame
      have hgd' : getNode sd nm = some fd := hgd
      have hfdvis : fd.visited = true := rfl
      -- preservation chains
      have hpres_cd : ∀ y ny, getNode sc y = some ny → ny.visited = true →
          getNode sd y = some ny := by
        intro y ny hy hyv
        have hyne : y ≠ nm := by
          rintro rfl
          exact hunvc ⟨ny, hy, hyv⟩
        rw [hned y hyne]
        exact hy
      have hpres_bd : ∀ y ny, getNode sb y = some ny → ny.visited = true →
          getNode sd y = some ny := by
        intro y ny hy hyv
        exact hpres_cd y ny (by rw [getNode_congr hscn]; exact hy) hyv
      have hpres_sd : ∀ y ny, getNode s y = some ny → ny.visited = true →
          getNode sd y = some ny := by
        intro y ny hy hyv
        exact hpres_bd y ny (hpresb y ny (hpres_sa y ny hy hyv) hyv) hyv
      have hunch_d : ∀ y ny, getNode sd y = some ny → ny.visited = false →
          getNode s y = some ny := by
        intro y ny hy hyv
        have hyne : y ≠ nm := by
          rintro rfl
          rw [hgd'] at hy
          have h2 : fd = ny := by injection hy
          rw [← h2, hfdvis] at hyv
          exact Bool.false_ne_true hyv.symm
        rw [hned y hyne, getNode_congr hscn] at hy
        have h3 := hunchb y ny hyne hy hyv
        rw [hnea y hyne] at h3
        exact h3
      have hviff_dc : ∀ x, x ≠ nm → (visitedAt sd x ↔ visitedAt sc x) := by
        intro x hx
        unfold visitedAt
        rw [hned x hx]
      -- the order after finishing
      have hstep_node : (mkStep nm n2).node = nm := rfl
      have hnm_not_in_c : nm ∉ orderNames sc.order := by
        intro hmem
        exact hunvc ((hIc.hmem nm).mp hmem)
      have horder_names : orderNames sd.order = orderNames sc.order ++ [nm] := by
        rw [hordd]
        simp [orderNames, mkStep]
      -- membership of upstream connections after the loop
      have hconn_vis : ∀ p2 : Port, ∀ j : Nat, node'.inputs[j]? = some p2 →
          ∀ c, p2.connection = some c → visitedAt sb c.node := by
        intro p2 j hj c hc
        have hjl : j < node'.inputs.length := (List.getElem?_eq_some.mp hj).1
        rw [hlen] at hjl
        obtain ⟨p, p', hp, hp', hpn, hpcn, hpcomp, hpd⟩ := hin_id j (List.mem_range.mpr hjl)
        rw [hj] at hp'
        have hqp : p2 = p' := by injection hp'
        subst hqp
        obtain ⟨u, hu, huv, _⟩ := hpd.1 c hc
        exact ⟨u, hu, huv⟩
      -- facts about every input port of the processed node
      have hq_info : ∀ q ∈ node'.inputs, q.compensation = none ∧ InputDone sb q ∧
          ∃ l, q.latency = some l := by
        intro q hq
        obtain ⟨j, hj⟩ := List.mem_iff_getElem?.mp hq
        have hjl : j < node'.inputs.length := (List.getElem?_eq_some.mp hj).1
        obtain ⟨p', hp', hcomp, hdone, l, hl⟩ := hlats j hjl
        rw [hj] at hp'
        have hpq : q = p' := by injection hp'
        subst hpq
        exact ⟨hcomp, hdone, l, hl⟩
      have hfd_in : fd.inputs = node'.inputs.map (compPort Lopt) := hn2in
      have hfd_outs : fd.outputs = na.outputs := by
        show n2.outputs = na.outputs
        rw [hn2outs, houtsn']
      have hna_out_some : ∀ q ∈ na.outputs, q.buffer.isSome = true := by
        intro q hq
        obtain ⟨j, hj⟩ := List.mem_iff_getElem?.mp hq
        have hjl2 : j < node.outputs.length := by
          by_contra hge
          push_neg at hge
          rw [hgea j hge, List.getElem?_eq_none hge] at hj
          exact Option.noConfusion hj
        obtain ⟨b, hb⟩ := hlta j hjl2
        rw [hj] at hb
        cases hno : node.outputs[j]? with
        | none => rw [hno] at hb; exact Option.noConfusion hb
        | some q0 =>
          rw [hno] at hb
          simp only [Option.map_some'] at hb
          have hple : q = { q0 with buffer := some b } := by injection hb
          rw [hple]
          rfl
      -- the node data invariant for the finished node
      have hdone_fd : NodeDone sd fd := by
        refine ⟨⟨Lv, ?_, ?_, ?_⟩, ?_, ?_, ?_⟩
        · show (fd.inputs.map (·.latency)).foldl jmax (some 0) = some Lv
          rw [hfd_in, List.map_map]
          have hmm2 : node'.inputs.map ((·.latency) ∘ compPort Lopt) =
              node'.inputs.map (·.latency) :=
            List.map_congr_left fun q _ => compPort_latency Lopt q
          rw [hmm2, hfold]
        · show fd.latency = some (Lv + fd.delay)
          show n2.latency = some (Lv + n2.delay)
          rw [hn2lat, hLsome, hn2delay]
          rfl
        · intro p2 hp2
          rw [hfd_in] at hp2
          obtain ⟨q, hq, hqe⟩ := List.mem_map.mp hp2
          obtain ⟨hcomp0, _, l, hl⟩ := hq_info q hq
          refine ⟨l, ?_, ?_⟩
          · rw [← hqe, compPort_latency, hl]
          · rw [← hqe, hLsome, compPort_comp q hl hcomp0]
        · intro p2 hp2 c hc
          rw [hfd_in] at hp2
          obtain ⟨q, hq, hqe⟩ := List.mem_map.mp hp2
          obtain ⟨_, hdone, _⟩ := hq_info q hq
          have hqc : q.connection = some c := by
            rw [← hqe, compPort_connection] at hc
            exact hc
          obtain ⟨u, hu, huv, hlatu, hbufu⟩ := hdone.1 c hqc
          refine ⟨u, hpres_bd c.node u hu huv, huv, ?_, ?_⟩
          · rw [← hqe, compPort_latency, hlatu]
          · rw [← hqe, compPort_buffer, compPort_name, hbufu]
        · intro p2 hp2 hc
          rw [hfd_in] at hp2
          obtain ⟨q, hq, hqe⟩ := List.mem_map.mp hp2
          obtain ⟨_, hdone, _⟩ := hq_info q hq
          have hqc : q.connection = none := by
            rw [← hqe, compPort_connection] at hc
            exact hc
          obtain ⟨h1, h2⟩ := hdone.2 hqc
          constructor
          · rw [← hqe, compPort_latency, h1]
          · rw [← hqe, compPort_buffer]
            exact h2
        · intro p2 hp2
          rw [hfd_outs] at hp2
          exact hna_out_some p2 hp2
      -- static input list of the node, on the skeleton side
      have hns_inputs : ns.inputs = node.inputs.map pskel := by
        rw [← hnsk]
        rfl
      have hidx_iff : ∀ x, (∃ i ∈ List.range node.inputs.length, ∃ p : Port,
          node.inputs[i]? = some p ∧ ∃ c, p.connection = some c ∧ Reach G c.node x) ↔
          (∃ ps ∈ ns.inputs, ∃ c, ps.connection = some c ∧ Reach G c.node x) := by
        intro x
        constructor
        · rintro ⟨i, hi, p, hp, c, hc, hr⟩
          exact ⟨pskel p, by
            rw [hns_inputs]
            exact List.mem_map_of_mem pskel (List.getElem?_mem hp), c, hc, hr⟩
        · rintro ⟨ps, hps, c, hc, hr⟩
          rw [hns_inputs] at hps
          obtain ⟨p, hp, hpe⟩ := List.mem_map.mp hps
          obtain ⟨i, hi⟩ := List.mem_iff_getElem?.mp hp
          refine ⟨i, List.mem_range.mpr (List.getElem?_eq_some.mp hi).1, p, hi, c, ?_, hr⟩
          rw [← hpe] at hc
          exact hc
      have hviff_final : ∀ x, visitedAt sd x ↔ visitedAt s x ∨ Reach G nm x := by
        intro x
        by_cases hx : x = nm
        · subst hx
          constructor
          · intro _
            exact Or.inr (Reach.refl x)
          · intro _
            exact ⟨fd, hgd', hfdvis⟩
        · rw [hviff_dc x hx, visitedAt_congr hscn x, hviffb x, hviffa x,
            reach_iff hlkv x]
          constructor
          · rintro (h | h)
            · exact Or.inl h
            · exact Or.inr (Or.inr ((hidx_iff x).mp h))
          · rintro (h | h | h)
            · exact Or.inl h
            · exact absurd h hx
            · exact Or.inr ((hidx_iff x).mpr h)
      -- assemble everything
      refine ⟨sd, fd.latency, mkReturnOuts fd, ?_, ⟨?_, ?_, ?_, ?_, ?_, ?_, ?_⟩, ?_,
        hpres_sd, hunch_d, hviff_final, fd, hgd', hfdvis, rfl, rfl⟩
      · -- the computation
        show visit (fuel + 1) nm s = some (sd, fd.latency, mkReturnOuts fd)
        simp only [visit]
        simp only [hget]
        rw [if_neg (fun h => Bool.false_ne_true (hvb ▸ h))]
        rw [← hsa]
        simp only [hcomp]
        rw [← hsc, ← hsd]
        simp only [hgd']
      · -- Inv: skeleton
        rw [hsd, finishNode_skel]
        exact hIc.hskel
      · -- Inv: membership
        intro x
        rw [horder_names]
        by_cases hx : x = nm
        · subst hx
          simp only [List.mem_append, List.mem_singleton]
          constructor
          · intro _
            exact ⟨fd, hgd', hfdvis⟩
          · intro _
            exact Or.inr trivial
        · simp only [List.mem_append, List.mem_singleton, hx, or_false]
          rw [hIc.hmem x, hviff_dc x hx]
      · -- Inv: no duplicate steps
        rw [horder_names]
        refine List.Nodup.append hIc.hnodup (List.nodup_singleton nm) ?_
        intro a ha1 ha2
        rw [List.mem_singleton] at ha2
        subst ha2
        exact hnm_not_in_c ha1
      · -- Inv: topological order of the steps
        intro i hi b hd
        by_cases hilt : i < sc.order.length
        · have hgeteq : sd.order.get ⟨i, hi⟩ = sc.order.get ⟨i, hilt⟩ := by
            have h7 : sd.order[i]? = sc.order[i]? := by
              rw [hordd, List.getElem?_append_left hilt]
            have h8 : sd.order[i]? = some (sd.order.get ⟨i, hi⟩) := by
              rw [List.get_eq_getElem]
              exact List.getElem?_eq_getElem hi
            have h9 : sc.order[i]? = some (sc.order.get ⟨i, hilt⟩) := by
              rw [List.get_eq_getElem]
              exact List.getElem?_eq_getElem hilt
            rw [h8, h9] at h7
            injection h7
          rw [hgeteq] at hd
          have h5 := hIc.htop i hilt b hd
          have htake : sd.order.take i = sc.order.take i := by
            rw [hordd, List.take_append_of_le_length (le_of_lt hilt)]
          rw [htake]
          exact h5
        · have hilen : i < sd.order.length := hi
          rw [hordd] at hilen
          simp only [List.length_append, List.length_singleton] at hilen
          have hieq : i = sc.order.length := by omega
          subst hieq
          have hgeteq : sd.order.get ⟨sc.order.length, hi⟩ = mkStep nm n2 := by
            have h7 : sd.order[sc.order.length]? = some (mkStep nm n2) := by
              rw [hordd, List.getElem?_append_right (le_refl _)]
              simp
            have h8 : sd.order[sc.order.length]? =
                some (sd.order.get ⟨sc.order.length, hi⟩) := by
              rw [List.get_eq_getElem]
              exact List.getElem?_eq_getElem hi
            rw [h7] at h8
            have h9 := h8.symm
            injection h9
          rw [hgeteq] at hd
          have hd2 : directDep G nm b := hd
          obtain ⟨ns2, ps, c, hlk2, hps, hpc, hcb⟩ := hd2
          rw [hlkv] at hlk2
          have hns2 : ns = ns2 := by injection hlk2
          subst hns2
          rw [hns_inputs] at hps
          obtain ⟨p, hpmem2, hpe⟩ := List.mem_map.mp hps
          obtain ⟨j, hj⟩ := List.mem_iff_getElem?.mp hpmem2
          have hpc2 : p.connection = some c := by
            rw [← hpe] at hpc
            exact hpc
          have hvb2 : visitedAt sb b := by
            rw [hviffb b]
            right
            exact ⟨j, List.mem_range.mpr (List.getElem?_eq_some.mp hj).1, p, hj, c,
              hpc2, hcb ▸ Reach.refl c.node⟩
          have hmemb : b ∈ orderNames sc.order :=
            (hIc.hmem b).mpr ((visitedAt_congr hscn b).mpr hvb2)
          have htake : sd.order.take sc.order.length = sc.order := by
            rw [hordd, List.take_append_of_le_length (le_refl _), List.take_length]
          rw [htake]
          exact hmemb
      · -- Inv: visited nodes have visited upstream nodes
        intro x nx hgx hvx q2 hq2 c hc
        by_cases hx : x = nm
        · subst hx
          rw [hgd'] at hgx
          have hfx : fd = nx := by injection hgx
          rw [← hfx] at hq2
          rw [hfd_in] at hq2
          obtain ⟨q, hq, hqe⟩ := List.mem_map.mp hq2
          have hqc : q.connection = some c := by
            rw [← hqe, compPort_connection] at hc
            exact hc
          obtain ⟨j, hj⟩ := List.mem_iff_getElem?.mp hq
          obtain ⟨u, hu, huv⟩ := hconn_vis q j hj c hqc
          exact ⟨u, hpres_bd c.node u hu huv, huv⟩
        · have hgx' : getNode sc x = some nx := by
            rw [hned x hx] at hgx
            exact hgx
          obtain ⟨u, hu, huv⟩ := hIc.hclosedV x nx hgx' hvx q2 hq2 c hc
          exact ⟨u, hpres_cd c.node u hu huv, huv⟩
      · -- Inv: steps record the final node data
        intro st hst
        rw [hordd] at hst
        rcases List.mem_append.mp hst with h | h
        · obtain ⟨n0, hn0, hv0, he0⟩ := hIc.hsteps st h
          exact ⟨n0, hpres_cd st.node n0 hn0 hv0, hv0, he0⟩
        · rw [List.mem_singleton] at h
          subst h
          exact ⟨fd, hgd', hfdvis, rfl⟩
      · -- Inv: node data invariant
        intro x nx hgx hvx
        by_cases hx : x = nm
        · subst hx
          rw [hgd'] at hgx
          have hfx : fd = nx := by injection hgx
          rw [← hfx]
          exact hdone_fd
        · have hgx' : getNode sc x = some nx := by
            rw [hned x hx] at hgx
            exact hgx
          exact NodeDone_mono hpres_cd (hIc.hdata x nx hgx' hvx)
      · -- order extension
        refine ⟨Δ ++ [mkStep nm n2], ?_⟩
        rw [hordd, hsco, hΔ, horda, List.append_assoc]

/-! ### The compile pass from a freshly reset graph -/

theorem Inv_fresh (g : List (String × Node)) (hfresh : freshB g = true) :
    Inv (skel g) { nodes := g, order := [], bufferStack := [], nextBuf := 0 } := by
  have hnv : ∀ x n, lookupN g x = some n → n.visited = false := by
    intro x n hg
    exact (freshNodeB_spec (freshB_spec hfresh hg)).2.1
  refine ⟨rfl, ?_, List.nodup_nil, ?_, ?_, ?_, ?_⟩
  · intro x
    constructor
    · intro h
      exact absurd h (List.not_mem_nil x)
    · rintro ⟨n, hn, hv⟩
      rw [hnv x n hn] at hv
      exact absurd hv Bool.false_ne_true
  · intro i hi
    exact absurd hi (Nat.not_lt_zero i)
  · intro x n hg hv
    rw [hnv x n hg] at hv
    exact absurd hv Bool.false_ne_true
  · intro st hst
    exact absurd hst (List.not_mem_nil st)
  · intro x n hg hv
    rw [hnv x n hg] at hv
    exact absurd hv Bool.false_ne_true

theorem schedule_ok (g : List (String × Node)) (root : String) (m : String → Nat)
    (fuel : Nat) (hcl : closedB (skel g) = true) (hm : measB (skel g) m = true)
    (hfresh : freshB g = true) (hroot : (lookupS (skel g) root).isSome = true)
    (hfuel : m root < fuel) :
    ∃ st, schedule fuel g root = some st ∧ Inv (skel g) st ∧
      (∀ x, visitedAt st x ↔ Reach (skel g) root x) := by
  set s0 : St := { nodes := g, order := [], bufferStack := [], nextBuf := 0 } with hs0
  have hI0 : Inv (skel g) s0 := Inv_fresh g hfresh
  have hfr0 : ∀ x, Reach (skel g) root x → ∀ nx, getNode s0 x = some nx →
      nx.visited = false → freshNodeB nx = true := by
    intro x _ nx hg _
    exact freshB_spec hfresh hg
  obtain ⟨st, lat, outs, hvisit, hInv, _, _, _, hviff, _⟩ :=
    visit_ok (skel g) m hcl hm fuel root s0 hfuel hI0 hroot hfr0
  refine ⟨st, ?_, hInv, ?_⟩
  · unfold schedule
    rw [← hs0]
    simp only [hvisit]
  · intro x
    rw [hviff x]
    constructor
    · rintro (⟨n, hn, hv⟩ | h)
      · have := (freshNodeB_spec (freshB_spec hfresh hn)).2.1
        rw [this] at hv
        exact absurd hv Bool.false_ne_true
      · exact h
    · exact fun h => Or.inr h

/-- Transitive dependencies respect the order of the schedule: each
step's direct upstream steps occur strictly earlier, hence so do all
transitive upstream steps. -/
theorem topo_trans {G : List (String × NodeSkel)} {ord : List Scheduled}
    (hnodup : (orderNames ord).Nodup)
    (htop : ∀ i (hi : i < ord.length) b,
      directDep G (ord.get ⟨i, hi⟩).node b → b ∈ orderNames (ord.take i)) :
    ∀ i, ∀ (hi : i < ord.length), ∀ j, ∀ (hj : j < ord.length),
      DependsOn G (ord.get ⟨i, hi⟩).node (ord.get ⟨j, hj⟩).node → j < i := by
  intro i
  induction i using Nat.strong_induction_on with
  | _ i IH =>
    intro hi j hj hdep
    obtain ⟨ns, p, c, hlk, hp, hc, hr⟩ := hdep
    have hdd : directDep G (ord.get ⟨i, hi⟩).node c.node := ⟨ns, p, c, hlk, hp, hc, rfl⟩
    have hmem := htop i hi c.node hdd
    have hnames_take : orderNames (ord.take i) = (orderNames ord).take i := by
      simp [orderNames, List.map_take]
    rw [hnames_take] at hmem
    obtain ⟨k, hk, hke⟩ := List.getElem_of_mem hmem
    have hkt : ((orderNames ord).take i).length ≤ i := by
      simp
    have hk2 : k < i := lt_of_lt_of_le hk hkt
    have hk3 : k < (orderNames ord).length := by
      have h4 : ((orderNames ord).take i).length ≤ (orderNames ord).length := by
        simp
      omega
    have hk4 : k < ord.length := by
      have : (orderNames ord).length = ord.length := by simp [orderNames]
      omega
    have hke2 : (ord.get ⟨k, hk4⟩).node = c.node := by
      have h5 : ((orderNames ord).take i).get ⟨k, hk⟩ = (orderNames ord).get ⟨k, hk3⟩ := by
        simp [List.getElem_take]
      have h5b : ((orderNames ord).take i).get ⟨k, hk⟩ = c.node := by
        rw [List.get_eq_getElem]
        exact hke
      have h6 : (orderNames ord).get ⟨k, hk3⟩ = (ord.get ⟨k, hk4⟩).node := by
        simp [orderNames]
      rw [← h6, ← h5, h5b]
    obtain ⟨b, hb⟩ : ∃ b, (ord.get ⟨j, hj⟩).node = b := ⟨_, rfl⟩
    rw [hb] at hr
    cases hr with
    | refl =>
      have hjk : j = k := by
        have hj2 : j < (orderNames ord).length := by
          simp [orderNames]
          omega
        have h7 : (orderNames ord).get ⟨j, hj2⟩ = (orderNames ord).get ⟨k, hk3⟩ := by
          have h8 : (orderNames ord).get ⟨j, hj2⟩ = (ord.get ⟨j, hj⟩).node := by
            simp [orderNames]
          have h9 : (orderNames ord).get ⟨k, hk3⟩ = (ord.get ⟨k, hk4⟩).node := by
            simp [orderNames]
          rw [h8, h9, hke2, ← hb]
        rw [List.get_eq_getElem, List.get_eq_getElem] at h7
        exact List.Nodup.getElem_inj_iff hnodup |>.mp h7
      omega
    | step ns' p' c' hlk' hp' hc' hr' =>
      have hdep2 : DependsOn G (ord.get ⟨k, hk4⟩).node (ord.get ⟨j, hj⟩).node := by
        rw [hke2, hb]
        exact ⟨ns', p', c', hlk', hp', hc', hr'⟩
      have := IH k hk2 hk4 j hj hdep2
      omega

theorem find_bind_isSome {u : Node} {nm0 : String}
    (hmatch : ∃ q ∈ u.outputs, downName (pskel q) = nm0)
    (houts : ∀ q ∈ u.outputs, q.buffer.isSome = true) :
    (((mkReturnOuts u).find? fun a => a.port == nm0).bind (·.buffer)).isSome = true := by
  obtain ⟨q, hq, hdn⟩ := hmatch
  have hsome : ((mkReturnOuts u).find? fun a => a.port == nm0).isSome = true := by
    rw [List.find?_isSome]
    refine ⟨_, List.mem_map_of_mem _ hq, ?_⟩
    show (downName (pskel q) == nm0) = true
    rw [hdn]
    simp
  cases hf : (mkReturnOuts u).find? fun a => a.port == nm0 with
  | none => rw [hf] at hsome; exact absurd hsome (by simp)
  | some a =>
    show a.buffer.isSome = true
    obtain ⟨q', hq', hqa⟩ := List.mem_map.mp (List.mem_of_find?_eq_some hf)
    have hab : a.buffer = q'.buffer := by rw [← hqa]
    rw [hab]
    exact houts q' hq'

/-! ### Concrete runs of the compiler, evaluated by unfolding -/

set_option maxHeartbeats 2000000

theorem diamond_eval :
    scheduleOrder 8 diamondGraph "Sink" = some
      [⟨"source", [], [⟨"out1", some 1, none⟩, ⟨"out2", some 2, none⟩]⟩,
       ⟨"Left", [⟨"in1", some 1, none⟩], [⟨"out1", some 0, none⟩]⟩,
       ⟨"Right", [⟨"in1", some 1, none⟩], [⟨"out1", some 0, none⟩]⟩,
       ⟨"Sink", [⟨"in1", some 0, some 1⟩, ⟨"in2", some 0, none⟩], []⟩] := by
  simp [scheduleOrder, schedule, visit, visitInputsF, getNode, lookupN, updateNode,
    updateN, acquireBuffer, releaseBuffer, acquireOutputs, releaseOutputs, finishNode,
    finishNodeCore, compPort, mkStep, mkReturnOuts, modifyAt, jmax, jsub, jadd,
    diamondGraph, sourceNode, leftNode, rightNode, sinkNode, List.range, List.range.loop]

theorem fanout_eval :
    scheduleOrder 8 fanoutGraph "s" = some
      [⟨"up", [], [⟨"o1", some 1, none⟩]⟩,
       ⟨"a", [⟨"ia", some 1, none⟩], [⟨"oa", some 0, none⟩]⟩,
       ⟨"b", [⟨"ib", none, none⟩], [⟨"ob", some 0, none⟩]⟩,
       ⟨"s", [⟨"s1", some 0, none⟩, ⟨"s2", some 0, none⟩], []⟩] := by
  simp [scheduleOrder, schedule, visit, visitInputsF, getNode, lookupN, updateNode,
    updateN, acquireBuffer, releaseBuffer, acquireOutputs, releaseOutputs, finishNode,
    finishNodeCore, compPort, mkStep, mkReturnOuts, modifyAt, jmax, jsub, jadd,
    fanoutGraph, fanSrcNode, fanANode, fanBNode, fanSinkNode, List.range, List.range.loop]

theorem twoInput_eval :
    scheduleOrder 6 twoInputGraph "n" = some
      [⟨"u", [], [⟨"o", some 0, none⟩]⟩,
       ⟨"n", [⟨"i1", some 0, none⟩, ⟨"i2", some 0, some 1⟩], []⟩] := by
  simp [scheduleOrder, schedule, visit, visitInputsF, getNode, lookupN, updateNode,
    updateN, acquireBuffer, releaseBuffer, acquireOutputs, releaseOutputs, finishNode,
    finishNodeCore, compPort, mkStep, mkReturnOuts, modifyAt, jmax, jsub, jadd,
    twoInputGraph, upNode, twoInNode, List.range, List.range.loop]

/-! ### The claims -/

/-- C8: for every acyclic graph (witnessed by a rank function strictly
decreasing along connections) whose transients are freshly reset and
whose root exists, the recursive compile traversal terminates: with
enough fuel (any bound above the root's rank), `schedule` returns a
result instead of running out. -/
theorem c8_termination (g : List (String × Node)) (root : String)
    (m : String → Nat) (fuel : Nat)
    (hcl : closedB (skel g) = true) (hm : measB (skel g) m = true)
    (hfresh : freshB g = true) (hroot : (lookupS (skel g) root).isSome = true)
    (hfuel : m root < fuel) :
    ∃ st, schedule fuel g root = some st := by
  obtain ⟨st, h1, _, _⟩ := schedule_ok g root m fuel hcl hm hfresh hroot hfuel
  exact ⟨st, h1⟩

/-- C8 witness: the two-node graph compiles with fuel 5. -/
theorem c8_witness : ∃ st, schedule 5 twoInputGraph "n" = some st :=
  c8_termination twoInputGraph "n" twoInputRank 5 (by decide) (by decide) (by decide)
    (by decide) (by decide)

/-- C1: compiling an acyclic graph with a valid root produces exactly
one step per node reachable from the root in the upstream direction (a
name is in the schedule iff it is reachable, and the schedule has no
duplicate names), and the steps are topologically ordered: a step's
node never precedes a node it transitively depends on through input
connections. -/
theorem c1_compile_topological_order (g : List (String × Node)) (root : String)
    (m : String → Nat) (fuel : Nat)
    (hcl : closedB (skel g) = true) (hm : measB (skel g) m = true)
    (hfresh : freshB g = true) (hroot : (lookupS (skel g) root).isSome = true)
    (hfuel : m root < fuel) :
    ∃ st, schedule fuel g root = some st ∧
      (∀ x, x ∈ orderNames st.order ↔ Reach (skel g) root x) ∧
      (orderNames st.order).Nodup ∧
      ∀ i, ∀ (hi : i < st.order.length), ∀ j, ∀ (hj : j < st.order.length),
        DependsOn (skel g) (st.order.get ⟨i, hi⟩).node (st.order.get ⟨j, hj⟩).node →
        j < i := by
  obtain ⟨st, h1, hInv, hviff⟩ := schedule_ok g root m fuel hcl hm hfresh hroot hfuel
  refine ⟨st, h1, ?_, hInv.hnodup, topo_trans hInv.hnodup hInv.htop⟩
  intro x
  rw [hInv.hmem x, hviff x]

/-- C1 witness: the four-node diamond of the source file, compiled from
its sink with rank function `diamondRank`. -/
theorem c1_witness :
    ∃ st, schedule 8 diamondGraph "Sink" = some st ∧
      (∀ x, x ∈ orderNames st.order ↔ Reach (skel diamondGraph) "Sink" x) ∧
      (orderNames st.order).Nodup ∧
      ∀ i, ∀ (hi : i < st.order.length), ∀ j, ∀ (hj : j < st.order.length),
        DependsOn (skel diamondGraph) (st.order.get ⟨i, hi⟩).node
          (st.order.get ⟨j, hj⟩).node → j < i :=
  c1_compile_topological_order diamondGraph "Sink" diamondRank 8 (by decide) (by decide)
    (by decide) (by decide) (by decide)

/-- C9: calling `schedule` again without resetting the transient
visited flag — the root is already marked visited — performs no step
appends and no buffer-pool operations: the result state keeps the nodes
untouched, an empty order, an empty buffer stack and a zero buffer
counter, rather than an error or a duplicated schedule. -/
theorem c9_revisit_empty (g : List (String × Node)) (root : String) (fuel : Nat)
    (h0 : 0 < fuel) (n : Node) (hget : lookupN g root = some n)
    (hvis : n.visited = true) :
    schedule fuel g root =
      some { nodes := g, order := [], bufferStack := [], nextBuf := 0 } := by
  cases fuel with
  | zero => exact absurd h0 (Nat.lt_irrefl 0)
  | succ fuel =>
    unfold schedule
    simp only [visit, getNode]
    simp only [hget]
    rw [if_pos hvis]

/-- C9 witness: a one-node graph whose node is already visited. -/
theorem c9_witness :
    schedule 1 staleGraph "r" =
      some { nodes := staleGraph, order := [], bufferStack := [], nextBuf := 0 } :=
  c9_revisit_empty staleGraph "r" 1 (by decide) staleNode rfl rfl

/-- C4: when additionally every connected input finds a matching entry
among its upstream node's reported outputs (`lookupOKB`), every input
and output binding of every scheduled step carries a resolved buffer,
and nodes unreachable from the root are absent from the schedule. -/
theorem c4_bindings_resolved (g : List (String × Node)) (root : String)
    (m : String → Nat) (fuel : Nat)
    (hcl : closedB (skel g) = true) (hm : measB (skel g) m = true)
    (hfresh : freshB g = true) (hroot : (lookupS (skel g) root).isSome = true)
    (hfuel : m root < fuel) (hlok : lookupOKB (skel g) = true) :
    ∃ st, schedule fuel g root = some st ∧
      (∀ step ∈ st.order, (∀ ba ∈ step.inputs, ba.buffer.isSome = true) ∧
        (∀ ba ∈ step.outputs, ba.buffer.isSome = true)) ∧
      (∀ x, ¬ Reach (skel g) root x → x ∉ orderNames st.order) := by
  obtain ⟨st, h1, hInv, hviff⟩ := schedule_ok g root m fuel hcl hm hfresh hroot hfuel
  refine ⟨st, h1, ?_, ?_⟩
  · intro step hstep
    obtain ⟨n, hn, hv, hmk⟩ := hInv.hsteps step hstep
    have hdone := hInv.hdata step.node n hn hv
    constructor
    · intro ba hba
      rw [hmk] at hba
      obtain ⟨p, hp, hpe⟩ := List.mem_map.mp hba
      have hbuf : ba.buffer = p.buffer := by rw [← hpe]
      rw [hbuf]
      cases hcn : p.connection with
      | none => exact (hdone.unconn p hp hcn).2
      | some c =>
        obtain ⟨u, hu, huv, _, hbu⟩ := hdone.conn p hp c hcn
        rw [hbu]
        have hudone := hInv.hdata c.node u hu huv
        obtain ⟨usk, hlus, o, ho, hdn⟩ :=
          lookupOKB_spec hlok (lookupS_mem (lookupS_of_getNode hInv.hskel hn))
            (List.mem_map_of_mem pskel hp) (show (pskel p).connection = some c from hcn)
        have husk : usk = nskel u := by
          rw [lookupS_of_getNode hInv.hskel hu] at hlus
          injection hlus with h2
          exact h2.symm
        subst husk
        obtain ⟨q, hqmem, hqe⟩ := List.mem_map.mp ho
        refine find_bind_isSome ⟨q, hqmem, ?_⟩ hudone.outs
        rw [hqe, hdn]
        rfl
    · intro ba hba
      rw [hmk] at hba
      obtain ⟨p, hp, hpe⟩ := List.mem_map.mp hba
      have hbuf : ba.buffer = p.buffer := by rw [← hpe]
      rw [hbuf]
      exact hdone.outs p hp
  · intro x hnr hmem
    exact hnr ((hviff x).mp ((hInv.hmem x).mp hmem))

/-- C4 witness: the diamond graph satisfies the lookup condition, and
its compiled schedule has every binding resolved. -/
theorem c4_witness :
    ∃ st, schedule 8 diamondGraph "Sink" = some st ∧
      (∀ step ∈ st.order, (∀ ba ∈ step.inputs, ba.buffer.isSome = true) ∧
        (∀ ba ∈ step.outputs, ba.buffer.isSome = true)) ∧
      (∀ x, ¬ Reach (skel diamondGraph) "Sink" x → x ∉ orderNames st.order) :=
  c4_bindings_resolved diamondGraph "Sink" diamondRank 8 (by decide) (by decide)
    (by decide) (by decide) (by decide) (by decide)

/-- C5: for every node scheduled during a compile pass, the node's
computed latency equals the maximum of its input latencies (an
unconnected input contributing 0, an empty input list yielding 0) plus
the node's own delay, and each connected input's latency is the
already-resolved latency of its upstream node (the latency fields are
written once per pass, so the final value equals the value at binding
time). -/
theorem c5_latency_recurrence (g : List (String × Node)) (root : String)
    (m : String → Nat) (fuel : Nat)
    (hcl : closedB (skel g) = true) (hm : measB (skel g) m = true)
    (hfresh : freshB g = true) (hroot : (lookupS (skel g) root).isSome = true)
    (hfuel : m root < fuel) :
    ∃ st, schedule fuel g root = some st ∧
      ∀ step ∈ st.order, ∃ n, getNode st step.node = some n ∧
        ∃ lats : List Int, n.inputs.map (·.latency) = lats.map some ∧
          n.latency = some (lats.foldl max 0 + n.delay) ∧
          (∀ p ∈ n.inputs, p.connection = none → p.latency = some 0) ∧
          (∀ p ∈ n.inputs, ∀ c : Conn, p.connection = some c →
            ∃ u, getNode st c.node = some u ∧ p.latency = u.latency) := by
  obtain ⟨st, h1, hInv, _⟩ := schedule_ok g root m fuel hcl hm hfresh hroot hfuel
  refine ⟨st, h1, ?_⟩
  intro step hstep
  obtain ⟨n, hn, hv, _⟩ := hInv.hsteps step hstep
  have hdone := hInv.hdata step.node n hn hv
  obtain ⟨L, hfold, hlat, hper⟩ := hdone.lat
  have hallsome : ∀ x ∈ n.inputs.map (·.latency), ∃ v, x = some v := by
    intro x hx
    obtain ⟨p, hp, hpe⟩ := List.mem_map.mp hx
    obtain ⟨l, hl, _⟩ := hper p hp
    exact ⟨l, by rw [← hpe, hl]⟩
  obtain ⟨lats, hlats⟩ := exists_map_some hallsome
  have hLe : L = lats.foldl max 0 := by
    rw [hlats, foldl_jmax_map_some] at hfold
    injection hfold with h2
    exact h2.symm
  refine ⟨n, hn, lats, hlats, by rw [hlat, hLe], ?_, ?_⟩
  · intro p hp hcn
    exact (hdone.unconn p hp hcn).1
  · intro p hp c hc
    obtain ⟨u, hu, _, hlu, _⟩ := hdone.conn p hp c hc
    exact ⟨u, hu, hlu⟩

/-- C5 witness: the diamond graph of the source file. -/
theorem c5_witness :
    ∃ st, schedule 8 diamondGraph "Sink" = some st ∧
      ∀ step ∈ st.order, ∃ n, getNode st step.node = some n ∧
        ∃ lats : List Int, n.inputs.map (·.latency) = lats.map some ∧
          n.latency = some (lats.foldl max 0 + n.delay) ∧
          (∀ p ∈ n.inputs, p.connection = none → p.latency = some 0) ∧
          (∀ p ∈ n.inputs, ∀ c : Conn, p.connection = some c →
            ∃ u, getNode st c.node = some u ∧ p.latency = u.latency) :=
  c5_latency_recurrence diamondGraph "Sink" diamondRank 8 (by decide) (by decide)
    (by decide) (by decide) (by decide)

/-- C6 counterexample: in `twoInputGraph` the input `i2` of node `n`
has no connection, yet the compiled schedule records compensation 1 on
its binding — so compensation is NOT attached only to connected inputs
as the claim states. -/
theorem c6_compensation_counterexample :
    (twoInNode.inputs.map fun p => (p.name, p.connection)) =
      [("i1", some ⟨"u", "o"⟩), ("i2", none)] ∧
    scheduleOrder 6 twoInputGraph "n" = some
      [⟨"u", [], [⟨"o", some 0, none⟩]⟩,
       ⟨"n", [⟨"i1", some 0, none⟩, ⟨"i2", some 0, some 1⟩], []⟩] :=
  ⟨rfl, twoInput_eval⟩

/-- C6 (amended): for every scheduled node, EVERY input port —
connected or not — ends the pass with `compensation` equal to
`maxInputLatency − latency(input)` when that difference is non-zero,
and with the compensation field absent (not a literal zero) when the
difference is zero; the step's recorded input bindings carry exactly
these port fields.  The original claim's words "compensation is
attached only to connected inputs" do not hold: an unconnected input
has latency 0 and receives compensation `maxInputLatency` whenever some
other input has positive latency. -/
theorem c6_compensation_amended (g : List (String × Node)) (root : String)
    (m : String → Nat) (fuel : Nat)
    (hcl : closedB (skel g) = true) (hm : measB (skel g) m = true)
    (hfresh : freshB g = true) (hroot : (lookupS (skel g) root).isSome = true)
    (hfuel : m root < fuel) :
    ∃ st, schedule fuel g root = some st ∧
      ∀ step ∈ st.order, ∃ n, getNode st step.node = some n ∧
        step = mkStep step.node n ∧
        ∃ lats : List Int, n.inputs.map (·.latency) = lats.map some ∧
          ∀ p ∈ n.inputs, ∃ l : Int, p.latency = some l ∧
            p.compensation = (if lats.foldl max 0 - l = 0 then none
              else some (lats.foldl max 0 - l)) := by
  obtain ⟨st, h1, hInv, _⟩ := schedule_ok g root m fuel hcl hm hfresh hroot hfuel
  refine ⟨st, h1, ?_⟩
  intro step hstep
  obtain ⟨n, hn, hv, hmk⟩ := hInv.hsteps step hstep
  obtain ⟨L, hfold, _, hper⟩ := (hInv.hdata step.node n hn hv).lat
  have hallsome : ∀ x ∈ n.inputs.map (·.latency), ∃ v, x = some v := by
    intro x hx
    obtain ⟨p, hp, hpe⟩ := List.mem_map.mp hx
    obtain ⟨l, hl, _⟩ := hper p hp
    exact ⟨l, by rw [← hpe, hl]⟩
  obtain ⟨lats, hlats⟩ := exists_map_some hallsome
  have hLe : L = lats.foldl max 0 := by
    rw [hlats, foldl_jmax_map_some] at hfold
    injection hfold with h2
    exact h2.symm
  refine ⟨n, hn, hmk, lats, hlats, ?_⟩
  intro p hp
  obtain ⟨l, hl, hcf⟩ := hper p hp
  exact ⟨l, hl, by rw [hcf, hLe]⟩

/-- C6 witness for the amended claim: the two-input graph. -/
theorem c6_witness :
    ∃ st, schedule 6 twoInputGraph "n" = some st ∧
      ∀ step ∈ st.order, ∃ n, getNode st step.node = some n ∧
        step = mkStep step.node n ∧
        ∃ lats : List Int, n.inputs.map (·.latency) = lats.map some ∧
          ∀ p ∈ n.inputs, ∃ l : Int, p.latency = some l ∧
            p.compensation = (if lats.foldl max 0 - l = 0 then none
              else some (lats.foldl max 0 - l)) :=
  c6_compensation_amended twoInputGraph "n" twoInputRank 6 (by decide) (by decide)
    (by decide) (by decide) (by decide)

/-- C10: in every compiled schedule, an input binding whose
compensation field is present carries a strictly positive value — never
negative and never a literal zero — so the render loop of the source
only ever invokes the external delay operation with a positive
amount. -/
theorem c10_compensation_positive (g : List (String × Node)) (root : String)
    (m : String → Nat) (fuel : Nat)
    (hcl : closedB (skel g) = true) (hm : measB (skel g) m = true)
    (hfresh : freshB g = true) (hroot : (lookupS (skel g) root).isSome = true)
    (hfuel : m root < fuel) :
    ∃ st, schedule fuel g root = some st ∧
      (∀ step ∈ st.order, ∀ ba ∈ step.inputs, ∀ c : Int,
        ba.compensation = some c → 0 < c) ∧
      (∀ d ∈ renderDelays st.order, 0 < d.2) := by
  obtain ⟨st, h1, hInv, _⟩ := schedule_ok g root m fuel hcl hm hfresh hroot hfuel
  have hpos : ∀ step ∈ st.order, ∀ ba ∈ step.inputs, ∀ c : Int,
      ba.compensation = some c → 0 < c := by
    intro step hstep ba hba c hc
    obtain ⟨n, hn, hv, hmk⟩ := hInv.hsteps step hstep
    obtain ⟨L, hfold, _, hper⟩ := (hInv.hdata step.node n hn hv).lat
    rw [hmk] at hba
    obtain ⟨p, hp, hpe⟩ := List.mem_map.mp hba
    have hcomp : p.compensation = some c := by
      rw [← hpe] at hc
      exact hc
    obtain ⟨l, hl, hcf⟩ := hper p hp
    rw [hcf] at hcomp
    by_cases h0 : L - l = 0
    · rw [if_pos h0] at hcomp
      exact Option.noConfusion hcomp
    · rw [if_neg h0] at hcomp
      have hcl2 : L - l = c := by injection hcomp
      have hallsome : ∀ x ∈ n.inputs.map (·.latency), ∃ v, x = some v := by
        intro x hx
        obtain ⟨q, hq, hqe⟩ := List.mem_map.mp hx
        obtain ⟨l2, hl2, _⟩ := hper q hq
        exact ⟨l2, by rw [← hqe, hl2]⟩
      obtain ⟨lats, hlats⟩ := exists_map_some hallsome
      have hLe : L = lats.foldl max 0 := by
        rw [hlats, foldl_jmax_map_some] at hfold
        injection hfold with h2
        exact h2.symm
      have hlmem : l ∈ lats := by
        have hm1 : p.latency ∈ n.inputs.map (·.latency) := List.mem_map_of_mem _ hp
        rw [hlats, hl] at hm1
        obtain ⟨v, hv, hve⟩ := List.mem_map.mp hm1
        have : v = l := by injection hve
        rw [← this]
        exact hv
      have hle : l ≤ L := by
        rw [hLe]
        exact mem_le_foldl_max lats 0 l hlmem
      omega
  refine ⟨st, h1, hpos, ?_⟩
  intro d hd
  obtain ⟨step, hstep, hd2⟩ := List.mem_flatMap.mp hd
  obtain ⟨ba, hba, hd3⟩ := List.mem_flatMap.mp hd2
  cases hcomp : ba.compensation with
  | none =>
    rw [hcomp] at hd3
    have hd4 : d ∈ ([] : List (Option Nat × Int)) := hd3
    exact absurd hd4 (List.not_mem_nil d)
  | some c =>
    rw [hcomp] at hd3
    have hd4 : d ∈ (if c ≠ 0 then [(ba.buffer, c)] else []) := hd3
    by_cases h0 : c ≠ 0
    · rw [if_pos h0] at hd4
      rw [List.mem_singleton] at hd4
      rw [hd4]
      exact hpos step hstep ba hba c hcomp
    · rw [if_neg h0] at hd4
      exact absurd hd4 (List.not_mem_nil d)

/-- C10 witness: the diamond graph of the source file. -/
theorem c10_witness :
    ∃ st, schedule 8 diamondGraph "Sink" = some st ∧
      (∀ step ∈ st.order, ∀ ba ∈ step.inputs, ∀ c : Int,
        ba.compensation = some c → 0 < c) ∧
      (∀ d ∈ renderDelays st.order, 0 < d.2) :=
  c10_compensation_positive diamondGraph "Sink" diamondRank 8 (by decide) (by decide)
    (by decide) (by decide) (by decide)

/-- C3 counterexample: in `fanoutGraph` the single output `o1` of node
`up` is named by the two distinct inputs `ia` (of `a`) and `ib` (of
`b`).  The node `up` is scheduled once and its output is bound to
buffer 1, but only `a`'s binding references buffer 1; `b`'s binding
references NO buffer at all (the code looks up the consumer's input
name among the downstream names stored on the producer's outputs, and
`up.o1` stores only `ia`).  So the consumers' bindings do not reference
the identical buffer handle, refuting the claim. -/
theorem c3_fanout_counterexample :
    (fanSrcNode.outputs.map fun p => (p.name, p.connection)) = [("o1", some ⟨"a", "ia"⟩)] ∧
    (fanANode.inputs.map fun p => (p.name, p.connection)) = [("ia", some ⟨"up", "o1"⟩)] ∧
    (fanBNode.inputs.map fun p => (p.name, p.connection)) = [("ib", some ⟨"up", "o1"⟩)] ∧
    scheduleOrder 8 fanoutGraph "s" = some
      [⟨"up", [], [⟨"o1", some 1, none⟩]⟩,
       ⟨"a", [⟨"ia", some 1, none⟩], [⟨"oa", some 0, none⟩]⟩,
       ⟨"b", [⟨"ib", none, none⟩], [⟨"ob", some 0, none⟩]⟩,
       ⟨"s", [⟨"s1", some 0, none⟩, ⟨"s2", some 0, none⟩], []⟩] :=
  ⟨rfl, rfl, rfl, fanout_eval⟩

/-- C3 (amended): a node with several downstream consumers is scheduled
exactly once (its name occurs exactly once in the order), and two
consumers' input bindings reference the identical buffer handle
whenever their input port names are equal — the code looks the buffer
up by the consumer's own input name among the downstream names stored
on the upstream's outputs, so equal names select the same entry.  When
the consumers' names differ the bindings need not share the buffer (a
consumer whose name matches no stored downstream name gets none), see
the counterexample. -/
theorem c3_fanout_amended (g : List (String × Node)) (root : String)
    (m : String → Nat) (fuel : Nat)
    (hcl : closedB (skel g) = true) (hm : measB (skel g) m = true)
    (hfresh : freshB g = true) (hroot : (lookupS (skel g) root).isSome = true)
    (hfuel : m root < fuel) :
    ∃ st, schedule fuel g root = some st ∧
      (∀ u, Reach (skel g) root u → (orderNames st.order).count u = 1) ∧
      (∀ x1 x2 n1 n2, getNode st x1 = some n1 → getNode st x2 = some n2 →
        n1.visited = true → n2.visited = true →
        ∀ p1 ∈ n1.inputs, ∀ p2 ∈ n2.inputs, ∀ c1 c2 : Conn,
          p1.connection = some c1 → p2.connection = some c2 → c1.node = c2.node →
          p1.name = p2.name → p1.buffer = p2.buffer) := by
  obtain ⟨st, h1, hInv, hviff⟩ := schedule_ok g root m fuel hcl hm hfresh hroot hfuel
  refine ⟨st, h1, ?_, ?_⟩
  · intro u hu
    have hmem : u ∈ orderNames st.order := (hInv.hmem u).mpr ((hviff u).mpr hu)
    exact List.count_eq_one_of_mem hInv.hnodup hmem
  · intro x1 x2 n1 n2 h1' h2' hv1 hv2 p1 hp1 p2 hp2 c1 c2 hc1 hc2 hcn hnm
    obtain ⟨u1, hu1, _, _, hb1⟩ := (hInv.hdata x1 n1 h1' hv1).conn p1 hp1 c1 hc1
    obtain ⟨u2, hu2, _, _, hb2⟩ := (hInv.hdata x2 n2 h2' hv2).conn p2 hp2 c2 hc2
    rw [hcn] at hu1
    rw [hu2] at hu1
    have hu12 : u2 = u1 := by injection hu1
    rw [hb1, hb2, hnm, hu12]

/-- C3 witness for the amended claim: the diamond graph. -/
theorem c3_witness :
    ∃ st, schedule 8 diamondGraph "Sink" = some st ∧
      (∀ u, Reach (skel diamondGraph) "Sink" u → (orderNames st.order).count u = 1) ∧
      (∀ x1 x2 n1 n2, getNode st x1 = some n1 → getNode st x2 = some n2 →
        n1.visited = true → n2.visited = true →
        ∀ p1 ∈ n1.inputs, ∀ p2 ∈ n2.inputs, ∀ c1 c2 : Conn,
          p1.connection = some c1 → p2.connection = some c2 → c1.node = c2.node →
          p1.name = p2.name → p1.buffer = p2.buffer) :=
  c3_fanout_amended diamondGraph "Sink" diamondRank 8 (by decide) (by decide)
    (by decide) (by decide) (by decide)

/-- C7 counterexample: in `fanoutGraph`, input `ib` of node `b` claims
a connection to output `o1` of `up`, but `up` reports its single output
under the downstream name `ia` only, so the lookup for `ib` fails.  The
compile call does NOT fail as a whole: it returns a complete four-step
schedule in which `b`'s step is partially bound (its input carries no
buffer). -/
theorem c7_missing_lookup_counterexample :
    (scheduleOrder 8 fanoutGraph "s").isSome = true ∧
    (scheduleOrder 8 fanoutGraph "s").map (fun ord => ord.length) = some 4 ∧
    (scheduleOrder 8 fanoutGraph "s").map
        (fun ord => ord.map fun step => step.inputs.map (·.buffer)) =
      some [[], [some 1], [none], [some 0, some 0]] := by
  refine ⟨?_, ?_, ?_⟩ <;> rw [fanout_eval] <;> rfl

/-- C7 (amended): a missing connection lookup is not a fatal error and
does not abort the compile: under the same conditions as termination
(no lookup condition assumed), `schedule` succeeds, and every connected
input port of every scheduled step is bound to exactly the result of
the code's find — the buffer of the first of the upstream's reported
outputs whose stored downstream name equals this input's name, and no
buffer at all when none matches.  The schedule, including any
partially-bound step, is returned whole. -/
theorem c7_missing_lookup_amended (g : List (String × Node)) (root : String)
    (m : String → Nat) (fuel : Nat)
    (hcl : closedB (skel g) = true) (hm : measB (skel g) m = true)
    (hfresh : freshB g = true) (hroot : (lookupS (skel g) root).isSome = true)
    (hfuel : m root < fuel) :
    ∃ st, schedule fuel g root = some st ∧
      ∀ step ∈ st.order, ∃ n, getNode st step.node = some n ∧
        step = mkStep step.node n ∧
        ∀ p ∈ n.inputs, ∀ c : Conn, p.connection = some c →
          ∃ u, getNode st c.node = some u ∧
            p.buffer =
              (((mkReturnOuts u).find? fun a => a.port == p.name).bind (·.buffer)) := by
  obtain ⟨st, h1, hInv, _⟩ := schedule_ok g root m fuel hcl hm hfresh hroot hfuel
  refine ⟨st, h1, ?_⟩
  intro step hstep
  obtain ⟨n, hn, hv, hmk⟩ := hInv.hsteps step hstep
  refine ⟨n, hn, hmk, ?_⟩
  intro p hp c hc
  obtain ⟨u, hu, _, _, hb⟩ := (hInv.hdata step.node n hn hv).conn p hp c hc
  exact ⟨u, hu, hb⟩

/-- C7 witness for the amended claim: the fan-out graph with the failed
lookup compiles whole. -/
theorem c7_witness :
    ∃ st, schedule 8 fanoutGraph "s" = some st ∧
      ∀ step ∈ st.order, ∃ n, getNode st step.node = some n ∧
        step = mkStep step.node n ∧
        ∀ p ∈ n.inputs, ∀ c : Conn, p.connection = some c →
          ∃ u, getNode st c.node = some u ∧
            p.buffer =
              (((mkReturnOuts u).find? fun a => a.port == p.name).bind (·.buffer)) :=
  c7_missing_lookup_amended fanoutGraph "s" fanoutRank 8 (by decide) (by decide)
    (by decide) (by decide) (by decide)

/-- C2 is refuted by the code on the repository's own example graph:
the claim says that between the step producing a buffer and a later
step consuming it, no intermediate step may rebind that buffer as an
output.  Compiling the diamond from `Sink`, the step for `Left`
(position 1) binds buffer 0 as its output, `Sink`'s first input
(position 3) references buffer 0, yet the step for `Right` (position
2, strictly between) rebinds buffer 0 as its own output — the pool
released `Left`'s output before its consumer bound it, so `Sink`'s two
inputs end up aliasing one buffer. -/
theorem c2_buffer_reuse_bug :
    scheduleOrder 8 diamondGraph "Sink" = some
      [⟨"source", [], [⟨"out1", some 1, none⟩, ⟨"out2", some 2, none⟩]⟩,
       ⟨"Left", [⟨"in1", some 1, none⟩], [⟨"out1", some 0, none⟩]⟩,
       ⟨"Right", [⟨"in1", some 1, none⟩], [⟨"out1", some 0, none⟩]⟩,
       ⟨"Sink", [⟨"in1", some 0, some 1⟩, ⟨"in2", some 0, none⟩], []⟩] := diamond_eval

end AudioGraph
